import Mathlib

/-!
Verification of `reco_utils/dataset/pandas_df_utils.py`.

The file shallowly embeds the four transforms of the repository:
`user_item_pairs`, `filter_by`, `libffm_converter` and
`negative_feedback_sampler`, and proves the frozen claims about them.
-/

namespace PandasDfUtils

/-! ## LibFFM encoder (`libffm_converter`)

The encoder is column oriented in the source: it inspects `df.dtypes`,
builds the `(field, feature) -> index` dictionary by scanning the
object-dtype non-label columns in order, and then rewrites every cell of
every non-label column.  We model a dataframe as a list of named, typed
columns.  A cell is either a string (`isinstance(feature, str)` holds in
`_convert`) or a non-string value carried together with its literal text
rendering (Python `str()` of the value), which is what both the token
format and `np.savetxt` emit. -/

/-- Pandas column dtypes as classified by the source's type check
`x == object or np.issubdtype(x, np.integer) or x == np.float`:
`object`, any integer dtype, the `float` (float64) dtype, and `other`
for every dtype the check rejects (e.g. `bool`, `datetime64`,
`float32`). -/
inductive Dtype where
  | object : Dtype
  | int : Dtype
  | float : Dtype
  | other : Dtype
deriving DecidableEq, Repr

/-- A dataframe cell: a Python `str`, or a non-string value carried with
its literal text rendering. -/
inductive Cell where
  | str (s : String) : Cell
  | num (lit : String) : Cell
deriving DecidableEq, Repr

/-- A named, typed column of a dataframe. -/
structure Col where
  name : String
  dtype : Dtype
  cells : List Cell
deriving DecidableEq, Repr

/-- Column-oriented dataframe for the encoder. -/
structure FDF where
  cols : List Col
deriving DecidableEq, Repr

/-- The dtype test `x == object or np.issubdtype(x, np.integer) or x == np.float`. -/
def dtypeOk : Dtype → Bool
  | .object => true
  | .int => true
  | .float => true
  | .other => false

/-- The non-label columns in original order:
`list(df_new.drop(col_rating, axis=1).columns)`. -/
def fieldCols (df : FDF) (colRating : String) : List Col :=
  df.cols.filter (fun c => decide (c.name ≠ colRating))

/-- Lookup in the association-list model of `field_feature_dict`. -/
def dictFind (d : List ((String × Cell) × Nat)) (k : String × Cell) :
    Option Nat :=
  (d.find? (fun p => decide (p.1 = k))).map (fun p => p.2)

/-- One step of the dictionary-building loop body: scan one column's
values top to bottom if its dtype is `object`, inserting each unseen
`(field, feature)` pair with the current counter value. -/
def addColToDict (acc : List ((String × Cell) × Nat) × Nat) (c : Col) :
    List ((String × Cell) × Nat) × Nat :=
  if c.dtype = .object then
    c.cells.foldl
      (fun st cell =>
        if (dictFind st.1 (c.name, cell)).isSome then st
        else (st.1 ++ [((c.name, cell), st.2)], st.2 + 1))
      acc
  else acc

/-- The `field_feature_dict`: fold of the dictionary-building loop over the
non-label columns, counter starting at 1. -/
def fieldFeatureDict (fields : List Col) : List ((String × Cell) × Nat) :=
  (fields.foldl addColToDict ([], 1)).1

/-- The helper `_convert(field, feature, field_index, field_feature_index_dict)`.
A missing dictionary key is a Python `KeyError`, modelled as `none`. -/
def convertCell (dict : List ((String × Cell) × Nat)) (fieldName : String)
    (fieldIndex : Nat) (cell : Cell) : Option String :=
  match cell with
  | .str _ =>
      (dictFind dict (fieldName, cell)).map
        (fun ffi => toString fieldIndex ++ ":" ++ toString ffi ++ ":1")
  | .num lit =>
      some (toString fieldIndex ++ ":" ++ toString fieldIndex ++ ":" ++ lit)

/-- Re-encode one non-label column (`df_new[col].apply(...)` with field
index `col_index + 1`); the result of `apply` on strings has dtype
`object`. -/
def encodeCol (dict : List ((String × Cell) × Nat)) (fieldIndex : Nat)
    (c : Col) : Option Col :=
  (c.cells.mapM (fun cell =>
    (convertCell dict c.name fieldIndex cell).map Cell.str)).map
    (fun cells => ⟨c.name, .object, cells⟩)

/-- The converter `libffm_converter(df, col_rating)` (the optional file write is a
serialization sink, `renderRows` below).  Errors: the explicit
`TypeError` of the type check; the `KeyError` pandas raises when
dropping a missing label column or when `_convert` misses the
dictionary. -/
def libffm_converter (df : FDF) (colRating : String) : Except String FDF :=
  if df.cols.all (fun c => dtypeOk c.dtype) then
    if df.cols.any (fun c => decide (c.name = colRating)) then
      let fields := fieldCols df colRating
      let dict := fieldFeatureDict fields
      match (fields.enum.mapM (fun p => encodeCol dict (p.1 + 1) p.2)) with
      | some encoded =>
          .ok ⟨df.cols.filter (fun c => decide (c.name = colRating)) ++ encoded⟩
      | none => .error "KeyError"
    else .error "KeyError"
  else .error "TypeError"

/-- Text form of a cell as written by `np.savetxt(..., fmt='%s')`. -/
def renderCell : Cell → String
  | .str s => s
  | .num lit => lit

/-- Row `j` of the dataframe as the space-separated line `np.savetxt`
writes. -/
def renderRow (df : FDF) (j : Nat) : String :=
  String.intercalate " "
    (df.cols.map (fun c => renderCell (c.cells.getD j (.num ""))))

/-- All lines of the optional text file, one per row. -/
def renderRows (df : FDF) : List String :=
  (List.range ((df.cols.head?.map (fun c => c.cells.length)).getD 0)).map
    (renderRow df)

/-! ## Cross join and filtering (`user_item_pairs`, `filter_by`)

These functions are row oriented: `user_item_pairs` writes a constant
`key` column into *both input frames in place*, cross-joins on it,
drops the key again, and optionally delegates to `filter_by`.  We model
a dataframe as a list of column names plus a list of rows, and model
the in-place mutation by returning the post-call states of both inputs
alongside the result. -/

/-- A dataframe value (identifier or feature). -/
inductive Val where
  | int (n : Int) : Val
  | str (s : String) : Val
deriving DecidableEq, Repr

/-- Row-oriented dataframe. -/
structure DF where
  names : List String
  rows : List (List Val)
deriving DecidableEq, Repr

/-- Well-formed frame: every row has one value per column. -/
def DF.WF (df : DF) : Prop :=
  ∀ r ∈ df.rows, r.length = df.names.length

instance (df : DF) : Decidable df.WF := by
  unfold DF.WF; infer_instance

/-- Position of a column name, as pandas label lookup finds it. -/
def colIdx (names : List String) (c : String) : Option Nat :=
  names.findIdx? (fun n => decide (n = c))

/-- The assignment `df[c] = v` with a constant `v`: overwrites an existing column in
place, otherwise appends a new column at the end. -/
def assignConstCol (df : DF) (c : String) (v : Val) : DF :=
  match colIdx df.names c with
  | some j => ⟨df.names, df.rows.map (fun r => r.set j v)⟩
  | none => ⟨df.names ++ [c], df.rows.map (fun r => r ++ [v])⟩

/-- The drop `df.drop(c, axis=1)`: removes the column (present in every use in
the source, so the missing-column `KeyError` path is never taken and we
leave the frame unchanged there). -/
def dropCol (df : DF) (c : String) : DF :=
  match colIdx df.names c with
  | some j => ⟨df.names.eraseIdx j, df.rows.map (fun r => r.eraseIdx j)⟩
  | none => df

/-- Default-suffix renaming pandas `merge` applies to column names the
two frames share (other than the join key). -/
def suffixName (otherNames : List String) (sfx : String) (n : String) :
    String :=
  if n ≠ "key" ∧ n ∈ otherNames then n ++ sfx else n

/-- The join `l.merge(r, on="key")`: inner join on the `key` column; for each
left row in order, the matching right rows in order, with the right
key column dropped and shared names suffixed `_x`/`_y`. -/
def mergeOnKey (l r : DF) : DF :=
  let kl := (colIdx l.names "key").getD l.names.length
  let kr := (colIdx r.names "key").getD r.names.length
  ⟨l.names.map (suffixName r.names "_x") ++
     (r.names.eraseIdx kr).map (suffixName l.names "_y"),
   l.rows.flatMap (fun ur =>
     ((r.rows.filter (fun ir =>
        decide (ir.getD kr (.int 0) = ur.getD kl (.int 0)))).map
       (fun ir => ur ++ ir.eraseIdx kr)))⟩

/-- Projection of a row onto the key columns, as
`df.set_index(filter_by_cols)` keys it; `none` models the `KeyError`
on a missing column (or a ragged row). -/
def projRow (names : List String) (cols : List String) (row : List Val) :
    Option (List Val) :=
  cols.mapM (fun c => (colIdx names c).bind (fun j => row.get? j))

/-- The filter `filter_by(df, filter_by_df, filter_by_cols)`: keep the source rows
whose key projection does not occur among the filter frame's key
projections.  `none` models the `KeyError` when a key column is missing
from either frame. -/
def filter_by (df fdf : DF) (cols : List String) : Option DF :=
  if cols.all (fun c => decide (c ∈ df.names)) ∧
      cols.all (fun c => decide (c ∈ fdf.names)) then
    some ⟨df.names,
      df.rows.filter (fun r =>
        !(fdf.rows.any (fun fr =>
          decide (projRow fdf.names cols fr = projRow df.names cols r))))⟩
  else none

/-- The generator `user_item_pairs(user_df, item_df, user_col, item_col,
user_item_filter_df, shuffle=False)`.  Returns the result together with
the post-call states of `user_df` and `item_df` (the function mutates
them while the key column is attached); `none` models the uncaught
exception from `filter_by`.  The `shuffle=True` branch only permutes the
result's rows with an unseeded generator and is outside the claims. -/
def user_item_pairs (user_df item_df : DF) (user_col item_col : String)
    (filter? : Option DF) : Option (DF × DF × DF) :=
  let u1 := assignConstCol user_df "key" (.int 1)
  let i1 := assignConstCol item_df "key" (.int 1)
  let merged := mergeOnKey u1 i1
  let u2 := dropCol u1 "key"
  let i2 := dropCol i1 "key"
  let m2 := dropCol merged "key"
  match filter? with
  | none => some (m2, u2, i2)
  | some f =>
      (filter_by m2 f [user_col, item_col]).map (fun m3 => (m3, u2, i2))

/-! ## Negative feedback sampling (`negative_feedback_sampler`)

The sampler reads only the user and item column of each input row
(`df[col_user].unique()`, `df[col_item].unique()`, and the
`(row[col_user], row[col_item])` tuples); the remaining columns are
modelled as an opaque `rest` that nothing reads.  The per-group
`x.sample(n=min(number_neg_per_pos, len(x)), random_state=seed)` call
draws `n` distinct row positions out of `len(x)` from a numpy
generator; we abstract that generator as a `Sampler` parameter mapping
`(seed, group length, n)` to the drawn positions, constrained by
`ValidSampler` to be `n` distinct in-range positions — exactly what
sampling without replacement guarantees. -/

/-- One input row: user id, item id, and every other column's values
(ratings etc.), which the source never reads. -/
structure NFRow where
  u : Nat
  i : Nat
  rest : List Int
deriving DecidableEq, Repr

/-- One row of the generated feedback frame
`[col_user, col_item, 'rating']`. -/
structure FBRow where
  u : Nat
  i : Nat
  rating : Nat
deriving DecidableEq, Repr

/-- The scan behind `pandas.unique`: emit each value on its first
occurrence, carrying the set of values already seen. -/
def uniqueFirstAux {α : Type} [DecidableEq α] (seen : List α) :
    List α → List α
  | [] => []
  | a :: l =>
      if a ∈ seen then uniqueFirstAux seen l
      else a :: uniqueFirstAux (seen ++ [a]) l

/-- Model of `pandas.unique`: distinct values in first-occurrence order. -/
def uniqueFirst {α : Type} [DecidableEq α] (l : List α) : List α :=
  uniqueFirstAux [] l

theorem mem_uniqueFirstAux {α : Type} [DecidableEq α] (a : α) :
    ∀ (l seen : List α), a ∈ uniqueFirstAux seen l ↔ a ∈ l ∧ a ∉ seen := by
  intro l
  induction l with
  | nil =>
      intro seen
      simp [uniqueFirstAux]
  | cons b t ih =>
      intro seen
      unfold uniqueFirstAux
      by_cases hb : b ∈ seen
      · rw [if_pos hb, ih]
        constructor
        · rintro ⟨h1, h2⟩
          exact ⟨List.mem_cons_of_mem b h1, h2⟩
        · rintro ⟨h1, h2⟩
          rcases List.mem_cons.mp h1 with he | hm
          · exact absurd (he ▸ hb) h2
          · exact ⟨hm, h2⟩
      · rw [if_neg hb, List.mem_cons, ih]
        constructor
        · rintro (he | ⟨h1, h2⟩)
          · exact ⟨he ▸ List.mem_cons_self b t, he ▸ hb⟩
          · refine ⟨List.mem_cons_of_mem b h1, fun hm => h2 ?_⟩
            rw [List.mem_append]
            exact Or.inl hm
        · rintro ⟨h1, h2⟩
          by_cases hab : a = b
          · exact Or.inl hab
          · rcases List.mem_cons.mp h1 with he | hm
            · exact absurd he hab
            · refine Or.inr ⟨hm, fun hs => ?_⟩
              rcases List.mem_append.mp hs with hs1 | hs2
              · exact h2 hs1
              · exact hab (List.mem_singleton.mp hs2)

theorem mem_uniqueFirst {α : Type} [DecidableEq α] (l : List α) (a : α) :
    a ∈ uniqueFirst l ↔ a ∈ l := by
  unfold uniqueFirst
  rw [mem_uniqueFirstAux]
  simp

theorem nodup_uniqueFirstAux {α : Type} [DecidableEq α] :
    ∀ (l seen : List α), (uniqueFirstAux seen l).Nodup := by
  intro l
  induction l with
  | nil =>
      intro seen
      exact List.nodup_nil
  | cons b t ih =>
      intro seen
      unfold uniqueFirstAux
      by_cases hb : b ∈ seen
      · rw [if_pos hb]
        exact ih seen
      · rw [if_neg hb, List.nodup_cons]
        refine ⟨fun hm => ?_, ih _⟩
        have h := (mem_uniqueFirstAux b t (seen ++ [b])).mp hm
        exact h.2 (List.mem_append.mpr (Or.inr (List.mem_singleton.mpr rfl)))

theorem nodup_uniqueFirst {α : Type} [DecidableEq α] (l : List α) :
    (uniqueFirst l).Nodup :=
  nodup_uniqueFirstAux l []

/-- The users `users = df[col_user].unique()`. -/
def nfUsers (rows : List NFRow) : List Nat :=
  uniqueFirst (rows.map (fun r => r.u))

/-- The items `items = df[col_item].unique()`. -/
def nfItems (rows : List NFRow) : List Nat :=
  uniqueFirst (rows.map (fun r => r.i))

/-- The list `user_item_tuples`: the observed `(user, item)` pairs, row by row. -/
def nfTuples (rows : List NFRow) : List (Nat × Nat) :=
  rows.map (fun r => (r.u, r.i))

/-- The rows of the dense candidate frame belonging to one user:
items in order, feedback 1 exactly on the observed tuples. -/
def userBlock (rows : List NFRow) (u : Nat) : List FBRow :=
  (nfItems rows).map (fun i =>
    ⟨u, i, if (u, i) ∈ nfTuples rows then 1 else 0⟩)

/-- The frame `df_all`: the dense candidate frame, users outer, items inner. -/
def dfAll (rows : List NFRow) : List FBRow :=
  (nfUsers rows).flatMap (userBlock rows)

/-- Abstract per-group position sampler standing for
`x.sample(n=k, random_state=seed, replace=False)`:
`s seed len k` lists the chosen row positions of a `len`-row group. -/
def Sampler : Type := Nat → Nat → Nat → List Nat

/-- Sampling without replacement yields `k` distinct positions below
`len` whenever `k ≤ len`. -/
def ValidSampler (s : Sampler) : Prop :=
  ∀ seed len k, k ≤ len →
    (s seed len k).length = k ∧ (s seed len k).Nodup ∧
      ∀ j ∈ s seed len k, j < len

/-- A concrete valid sampler (always draws the first `k` positions),
used to instantiate the theorems. -/
def firstIdx : Sampler := fun _ _ k => List.range k

/-- The draw `x.sample(n=min(number_neg_per_pos, len(x)), random_state=seed)`:
the rows of group `g` at the drawn positions. -/
def sampleGroup (s : Sampler) (seed npos : Nat) (g : List FBRow) :
    List FBRow :=
  (s seed g.length (min npos g.length)).map (fun j => g.getD j ⟨0, 0, 0⟩)

/-- The positive part `df_all[df_all['rating'] == 1]`. -/
def posPart (all : List FBRow) : List FBRow :=
  all.filter (fun r => decide (r.rating = 1))

/-- The negative part `df_all[df_all['rating'] == 0]`. -/
def negPart (all : List FBRow) : List FBRow :=
  all.filter (fun r => decide (r.rating = 0))

/-- The grouping `df_neg.groupby(col_user)` iterates the distinct user keys in
ascending order; each group keeps its rows in frame order. -/
def negGroupUsers (all : List FBRow) : List Nat :=
  List.insertionSort (fun a b => a ≤ b)
    (uniqueFirst ((negPart all).map (fun r => r.u)))

/-- The group `df_neg.groupby(col_user)` builds for user `u`: the
negative rows of `u` in frame order. -/
def negGroup (all : List FBRow) (u : Nat) : List FBRow :=
  (negPart all).filter (fun r => decide (r.u = u))

/-- The frame `df_neg_sample`: per-user sampled negatives, concatenated over the
groups. -/
def negSample (s : Sampler) (seed npos : Nat) (all : List FBRow) :
    List FBRow :=
  (negGroupUsers all).flatMap (fun u =>
    sampleGroup s seed npos (negGroup all u))

/-- Ascending `(user, item)` order used by
`sort_values(by=[col_user, col_item])`. -/
def fbLe (a b : FBRow) : Prop :=
  a.u < b.u ∨ (a.u = b.u ∧ a.i ≤ b.i)

instance : DecidableRel fbLe := fun a b => by
  unfold fbLe; infer_instance

instance : IsTotal FBRow fbLe := by
  constructor
  intro a b
  unfold fbLe
  rcases Nat.lt_trichotomy a.u b.u with h | h | h
  · exact Or.inl (Or.inl h)
  · rcases Nat.le_total a.i b.i with h2 | h2
    · exact Or.inl (Or.inr ⟨h, h2⟩)
    · exact Or.inr (Or.inr ⟨h.symm, h2⟩)
  · exact Or.inr (Or.inl h)

instance : IsTrans FBRow fbLe := by
  constructor
  intro a b c hab hbc
  unfold fbLe at *
  rcases hab with h1 | ⟨h1, h1'⟩
  · rcases hbc with h2 | ⟨h2, _⟩
    · exact Or.inl (h1.trans h2)
    · exact Or.inl (h2 ▸ h1)
  · rcases hbc with h2 | ⟨h2, h2'⟩
    · exact Or.inl (h1 ▸ h2)
    · exact Or.inr ⟨h1.trans h2, h1'.trans h2'⟩

/-- Assembly of the output from the dense frame: split into positives
and negatives, sample the negatives per user, concatenate and sort by
`(user, item)`. -/
def assemble (s : Sampler) (seed npos : Nat) (all : List FBRow) :
    List FBRow :=
  List.insertionSort fbLe (posPart all ++ negSample s seed npos all)

/-- The sampler `negative_feedback_sampler(df, col_user, col_item,
number_neg_per_pos, seed)` for a frame that contains the user and item
columns (the missing-column `ValueError` aborts before any of this). -/
def negative_feedback_sampler (s : Sampler) (seed npos : Nat)
    (rows : List NFRow) : List FBRow :=
  assemble s seed npos (dfAll rows)

/-- Distinct items the user interacted with (the user's positives in
the dense frame). -/
def posFor (rows : List NFRow) (u : Nat) : Nat :=
  ((nfItems rows).filter (fun i => decide ((u, i) ∈ nfTuples rows))).length

/-! ## The concrete encoder scenario (C1) -/

/-- The 5-row feature table of the spec's concrete scenario. -/
def exampleDf : FDF := ⟨[
  ⟨"rating", .int, [.num "1", .num "0", .num "0", .num "1", .num "1"]⟩,
  ⟨"field1", .object,
    [.str "xxx1", .str "xxx2", .str "xxx4", .str "xxx4", .str "xxx4"]⟩,
  ⟨"field2", .int, [.num "3", .num "4", .num "5", .num "6", .num "7"]⟩,
  ⟨"field3", .float,
    [.num "1.0", .num "2.0", .num "3.0", .num "4.0", .num "5.0"]⟩,
  ⟨"field4", .object, [.str "1", .str "2", .str "3", .str "4", .str "5"]⟩]⟩

/-- The encoded table the scenario requires: label column first, then
the four encoded field columns. -/
def exampleOut : FDF := ⟨[
  ⟨"rating", .int, [.num "1", .num "0", .num "0", .num "1", .num "1"]⟩,
  ⟨"field1", .object,
    [.str "1:1:1", .str "1:2:1", .str "1:3:1", .str "1:3:1", .str "1:3:1"]⟩,
  ⟨"field2", .object,
    [.str "2:2:3", .str "2:2:4", .str "2:2:5", .str "2:2:6", .str "2:2:7"]⟩,
  ⟨"field3", .object,
    [.str "3:3:1.0", .str "3:3:2.0", .str "3:3:3.0", .str "3:3:4.0",
     .str "3:3:5.0"]⟩,
  ⟨"field4", .object,
    [.str "4:4:1", .str "4:5:1", .str "4:6:1", .str "4:7:1", .str "4:8:1"]⟩]⟩

/-- Claim C1: on the concrete 5-row table, `libffm_converter` with label
column `rating` succeeds and returns exactly the claimed encoding, in
row order, label column first; rendered as text lines the rows are
exactly the five claimed strings. -/
theorem claim_C1 :
    libffm_converter exampleDf "rating" = .ok exampleOut ∧
      renderRows exampleOut =
        ["1 1:1:1 2:2:3 3:3:1.0 4:4:1",
         "0 1:2:1 2:2:4 3:3:2.0 4:5:1",
         "0 1:3:1 2:2:5 3:3:3.0 4:6:1",
         "1 1:3:1 2:2:6 3:3:4.0 4:7:1",
         "1 1:3:1 2:2:7 3:3:5.0 4:8:1"] := by
  constructor <;> rfl

/-! ## The feature dictionary (C2) -/

/-- One insertion step of the dictionary-building loop, on a single
`(field, feature)` key. -/
def insertKey (st : List ((String × Cell) × Nat) × Nat)
    (k : String × Cell) : List ((String × Cell) × Nat) × Nat :=
  if (dictFind st.1 k).isSome then st else (st.1 ++ [(k, st.2)], st.2 + 1)

/-- The `(field, feature)` scan stream: the categorical (object-dtype)
columns in original column order, each column's values top to bottom. -/
def scanPairs (fields : List Col) : List (String × Cell) :=
  (fields.filter (fun c => decide (c.dtype = .object))).flatMap
    (fun c => c.cells.map (fun x => (c.name, x)))

/-- Keys paired with consecutive codes starting at `i`. -/
def enumDictFrom (i : Nat) : List (String × Cell) →
    List ((String × Cell) × Nat)
  | [] => []
  | k :: ks => (k, i) :: enumDictFrom (i + 1) ks

theorem dictFind_isSome (d : List ((String × Cell) × Nat))
    (k : String × Cell) :
    (dictFind d k).isSome = decide (k ∈ d.map Prod.fst) := by
  induction d with
  | nil => rfl
  | cons p d ih =>
      unfold dictFind at ih ⊢
      rw [List.find?_cons]
      by_cases hp : p.1 = k
      · rw [decide_eq_true hp]
        simp [hp]
      · rw [decide_eq_false hp]
        have hk : ¬(k = p.1) := fun h => hp h.symm
        simp [ih, hk]

theorem foldl_addColToDict_eq (fields : List Col)
    (acc : List ((String × Cell) × Nat) × Nat) :
    fields.foldl addColToDict acc = (scanPairs fields).foldl insertKey acc := by
  induction fields generalizing acc with
  | nil => rfl
  | cons c fs ih =>
      by_cases hc : c.dtype = .object
      · have h1 : scanPairs (c :: fs) =
            c.cells.map (fun x => (c.name, x)) ++ scanPairs fs := by
          unfold scanPairs
          rw [List.filter_cons, decide_eq_true hc, if_pos rfl, List.flatMap_cons]
        rw [List.foldl_cons, ih, h1, List.foldl_append]
        congr 1
        unfold addColToDict
        rw [if_pos hc, List.foldl_map]
        rfl
      · have h1 : scanPairs (c :: fs) = scanPairs fs := by
          unfold scanPairs
          rw [List.filter_cons, decide_eq_false hc]
          simp
        have h2 : addColToDict acc c = acc := by
          unfold addColToDict
          rw [if_neg hc]
        rw [List.foldl_cons, h2, ih, h1]

theorem foldl_insertKey_eq (ks : List (String × Cell))
    (d : List ((String × Cell) × Nat)) (i : Nat) :
    (ks.foldl insertKey (d, i)).1 =
      d ++ enumDictFrom i (uniqueFirstAux (d.map Prod.fst) ks) := by
  induction ks generalizing d i with
  | nil => simp [uniqueFirstAux, enumDictFrom]
  | cons k ks ih =>
      rw [List.foldl_cons]
      unfold uniqueFirstAux
      by_cases hk : k ∈ d.map Prod.fst
      · have hstep : insertKey (d, i) k = (d, i) := by
          unfold insertKey
          rw [dictFind_isSome, decide_eq_true hk]
          rfl
        rw [hstep, ih, if_pos hk]
      · have hstep : insertKey (d, i) k = (d ++ [(k, i)], i + 1) := by
          unfold insertKey
          rw [dictFind_isSome, decide_eq_false hk]
          rfl
        rw [hstep, ih, if_neg hk]
        have hmap : (d ++ [(k, i)]).map Prod.fst = d.map Prod.fst ++ [k] := by
          simp
        rw [hmap]
        simp only [enumDictFrom, List.append_assoc, List.singleton_append]

/-- Claim C2: the feature dictionary built by `libffm_converter` for the
non-label columns is exactly: the distinct `(field, feature)` pairs in
first-occurrence order of the scan that walks the categorical
(object-dtype) non-label columns in original column order, each
column's values top to bottom — numeric columns contributing no
entries — paired with the consecutive codes `1, 2, 3, ...` of a single
global counter that starts at 1 and is never reset per field. -/
theorem claim_C2 (df : FDF) (colRating : String) :
    fieldFeatureDict (fieldCols df colRating) =
      enumDictFrom 1 (uniqueFirst (scanPairs (fieldCols df colRating))) := by
  unfold fieldFeatureDict
  rw [foldl_addColToDict_eq, foldl_insertKey_eq]
  rfl

/-! ## The type check (C8) -/

/-- A frame whose *label* column has an unsupported dtype (e.g. a
`bool` or `datetime64` rating column) while every non-label column is
categorical or numeric. -/
def badLabelDf : FDF :=
  ⟨[⟨"rating", .other, [.num "1"]⟩, ⟨"f1", .object, [.str "a"]⟩]⟩

/-- Claim C8, counterexample: every non-label column of `badLabelDf` is
categorical or numeric, yet `libffm_converter` raises the type error —
the source checks `df.dtypes` of *all* columns, label included, so the
claimed "if and only if some non-label column" fails. -/
theorem claim_C8_counterexample :
    ((fieldCols badLabelDf "rating").all (fun c => dtypeOk c.dtype)) = true ∧
      libffm_converter badLabelDf "rating" = .error "TypeError" := by
  constructor <;> rfl

/-- Claim C8, amended: `libffm_converter` raises the type error if and only
if some column — the label column included — has a dtype that is
neither categorical (object) nor numeric (integer or float); the error
aborts the call before any encoding, so no output frame is produced. -/
theorem claim_C8 (df : FDF) (colRating : String) :
    libffm_converter df colRating = .error "TypeError" ↔
      ¬(df.cols.all (fun c => dtypeOk c.dtype) = true) := by
  unfold libffm_converter
  by_cases h : df.cols.all (fun c => dtypeOk c.dtype) = true
  · rw [if_pos h]
    constructor
    · intro he
      exfalso
      by_cases h2 : df.cols.any (fun c => decide (c.name = colRating)) = true
      · rw [if_pos h2] at he
        dsimp only at he
        revert he
        split
        · intro he
          exact Except.noConfusion he
        · intro he
          have hs : "KeyError" = "TypeError" := by injection he
          exact absurd hs (by decide)
      · rw [if_neg h2] at he
        have hs : "KeyError" = "TypeError" := by injection he
        exact absurd hs (by decide)
    · intro hn
      exact absurd h hn
  · rw [if_neg h]
    simp [h]

/-! ## Cross-join lemmas (towards C5, C6, C7) -/

/-- The value-level cross join: every user row followed by every item
row. -/
def crossRows (udf idf : DF) : List (List Val) :=
  udf.rows.flatMap (fun ur => idf.rows.map (fun ir => ur ++ ir))

/-- The values of column `c`. -/
def colVals (df : DF) (c : String) : List Val :=
  match colIdx df.names c with
  | some j => df.rows.map (fun r => r.getD j (.int 0))
  | none => []

/-- The `(user, item)` key of every row, in row order. -/
def pairsOf (df : DF) (uc ic : String) : List (Val × Val) :=
  match colIdx df.names uc, colIdx df.names ic with
  | some ju, some ji =>
      df.rows.map (fun r => (r.getD ju (.int 0), r.getD ji (.int 0)))
  | _, _ => []

/-- The full cross product of the user ids with the item ids. -/
def crossPairs (udf idf : DF) (uc ic : String) : List (Val × Val) :=
  (colVals udf uc).flatMap (fun u => (colVals idf ic).map (fun i => (u, i)))

theorem colIdx_not_mem {names : List String} {c : String} (h : c ∉ names) :
    colIdx names c = none := by
  unfold colIdx
  rw [List.findIdx?_eq_none_iff]
  intro n hn
  exact decide_eq_false (fun he => h (he ▸ hn))

theorem colIdx_lt {names : List String} {c : String} {j : Nat}
    (h : colIdx names c = some j) : j < names.length := by
  unfold colIdx at h
  rw [List.findIdx?_eq_some_iff_findIdx_eq] at h
  exact h.1

theorem colIdx_isSome {names : List String} {c : String} (h : c ∈ names) :
    (colIdx names c).isSome = true := by
  unfold colIdx
  rw [List.findIdx?_isSome]
  exact List.any_eq_true.mpr ⟨c, h, by simp⟩

theorem colIdx_append (l1 l2 : List String) (c : String) :
    colIdx (l1 ++ l2) c =
      (colIdx l1 c).or ((colIdx l2 c).map (fun i => i + l1.length)) := by
  unfold colIdx
  exact List.findIdx?_append

theorem colIdx_key_append (names : List String) (h : "key" ∉ names) :
    colIdx (names ++ ["key"]) "key" = some names.length := by
  rw [colIdx_append, colIdx_not_mem h,
    show colIdx ["key"] "key" = some 0 from by decide]
  simp

/-- Attaching the key column to a frame without one appends it. -/
theorem assignConstCol_key (df : DF) (h : "key" ∉ df.names) :
    assignConstCol df "key" (.int 1) =
      ⟨df.names ++ ["key"], df.rows.map (fun r => r ++ [.int 1])⟩ := by
  unfold assignConstCol
  rw [colIdx_not_mem h]

/-- Dropping the appended key column restores the frame. -/
theorem dropCol_assign_key (df : DF) (hw : df.WF) (h : "key" ∉ df.names) :
    dropCol (assignConstCol df "key" (.int 1)) "key" = df := by
  rw [assignConstCol_key df h]
  unfold dropCol
  rw [colIdx_key_append df.names h]
  have hn : (df.names ++ ["key"]).eraseIdx df.names.length = df.names := by
    rw [List.eraseIdx_append_of_length_le (Nat.le_refl _)]
    simp
  have hr : ∀ r ∈ df.rows, (r ++ [Val.int 1]).eraseIdx df.names.length = r := by
    intro r hr
    rw [← hw r hr, List.eraseIdx_append_of_length_le (Nat.le_refl _)]
    simp
  cases df with
  | mk names rows =>
      simp only [hn, List.map_map]
      congr 1
      refine (List.map_congr_left ?_).trans (List.map_id _)
      intro r h2
      exact hr r h2

theorem getD_concat_self (r : List Val) (v : Val) :
    (r ++ [v]).getD r.length (.int 0) = v := by
  rw [List.getD_eq_getElem?_getD, List.getElem?_concat_length]
  rfl

theorem suffixName_id {other : List String} {sfx n : String}
    (h : ¬(n ≠ "key" ∧ n ∈ other)) : suffixName other sfx n = n := by
  unfold suffixName
  rw [if_neg h]

/-- The cross join under the key trick, with the key dropped again:
names are concatenated and rows are the value-level cross join. -/
theorem merge_drop_key (udf idf : DF) (hwu : udf.WF) (hwi : idf.WF)
    (hku : "key" ∉ udf.names) (hki : "key" ∉ idf.names)
    (hdisj : ∀ n ∈ udf.names, n ∉ idf.names) :
    dropCol (mergeOnKey (assignConstCol udf "key" (.int 1))
        (assignConstCol idf "key" (.int 1))) "key" =
      ⟨udf.names ++ idf.names, crossRows udf idf⟩ := by
  rw [assignConstCol_key udf hku, assignConstCol_key idf hki]
  unfold mergeOnKey
  rw [colIdx_key_append udf.names hku, colIdx_key_append idf.names hki]
  have hlnames : (udf.names ++ ["key"]).map
      (suffixName (idf.names ++ ["key"]) "_x") = udf.names ++ ["key"] := by
    refine (List.map_congr_left ?_).trans (List.map_id _)
    intro n hn
    apply suffixName_id
    rcases List.mem_append.mp hn with h | h
    · rintro ⟨h1, h2⟩
      rcases List.mem_append.mp h2 with h3 | h3
      · exact hdisj n h h3
      · exact h1 (List.mem_singleton.mp h3)
    · rintro ⟨h1, _⟩
      exact h1 (List.mem_singleton.mp h)
  have herase : (idf.names ++ ["key"]).eraseIdx idf.names.length = idf.names := by
    rw [List.eraseIdx_append_of_length_le (Nat.le_refl _)]
    simp
  have hrnames : idf.names.map (suffixName (udf.names ++ ["key"]) "_y") =
      idf.names := by
    refine (List.map_congr_left ?_).trans (List.map_id _)
    intro n hn
    apply suffixName_id
    rintro ⟨h1, h2⟩
    rcases List.mem_append.mp h2 with h3 | h3
    · exact hdisj n h3 hn
    · exact h1 (List.mem_singleton.mp h3)
  have hrows : (udf.rows.map (fun r => r ++ [Val.int 1])).flatMap
      (fun ur => ((idf.rows.map (fun r => r ++ [Val.int 1])).filter
          (fun ir => decide (ir.getD idf.names.length (.int 0) =
            ur.getD udf.names.length (.int 0)))).map
        (fun ir => ur ++ ir.eraseIdx idf.names.length)) =
      udf.rows.flatMap (fun u => idf.rows.map (fun i => (u ++ [Val.int 1]) ++ i)) := by
    rw [List.flatMap_map]
    apply List.flatMap_congr
    intro u hu
    have hfil : (idf.rows.map (fun r => r ++ [Val.int 1])).filter
        (fun ir => decide (ir.getD idf.names.length (.int 0) =
          (u ++ [Val.int 1]).getD udf.names.length (.int 0))) =
        idf.rows.map (fun r => r ++ [Val.int 1]) := by
      apply List.filter_eq_self.mpr
      intro ir hir
      rcases List.mem_map.mp hir with ⟨i, hi, hii⟩
      apply decide_eq_true
      rw [← hii, ← hwi i hi, getD_concat_self, ← hwu u hu, getD_concat_self]
    rw [hfil, List.map_map]
    apply List.map_congr_left
    intro i hi
    show u ++ [Val.int 1] ++ (i ++ [Val.int 1]).eraseIdx idf.names.length = _
    rw [← hwi i hi, List.eraseIdx_append_of_length_le (Nat.le_refl _)]
    simp
  simp only [Option.getD_some, hlnames, herase, hrnames, hrows]
  unfold dropCol
  have hkey : colIdx ((udf.names ++ ["key"]) ++ idf.names) "key" =
      some udf.names.length := by
    rw [colIdx_append, colIdx_key_append udf.names hku]
    rfl
  rw [hkey]
  have hn2 : ((udf.names ++ ["key"]) ++ idf.names).eraseIdx udf.names.length =
      udf.names ++ idf.names := by
    rw [List.append_assoc, List.singleton_append,
      List.eraseIdx_append_of_length_le (Nat.le_refl _)]
    simp
  have hr2 : (udf.rows.flatMap
      (fun u => idf.rows.map (fun i => (u ++ [Val.int 1]) ++ i))).map
        (fun r => r.eraseIdx udf.names.length) = crossRows udf idf := by
    rw [List.map_flatMap]
    apply List.flatMap_congr
    intro u hu
    rw [List.map_map]
    apply List.map_congr_left
    intro i _
    show ((u ++ [Val.int 1]) ++ i).eraseIdx udf.names.length = u ++ i
    rw [List.append_assoc, List.singleton_append, ← hwu u hu,
      List.eraseIdx_append_of_length_le (Nat.le_refl _)]
    simp
  simp only [hn2, hr2]

theorem crossRows_length (udf idf : DF) :
    (crossRows udf idf).length = udf.rows.length * idf.rows.length := by
  unfold crossRows
  rw [List.length_flatMap]
  have : udf.rows.map (List.length ∘ fun ur => idf.rows.map (fun ir => ur ++ ir)) =
      udf.rows.map (fun _ => idf.rows.length) := by
    apply List.map_congr_left
    intro u _
    simp
  rw [this, List.map_const', List.sum_const_nat]

theorem pairsOf_cross (udf idf : DF) (uc ic : String)
    (hwu : udf.WF) (hwi : idf.WF)
    (hdisj : ∀ n ∈ udf.names, n ∉ idf.names)
    (huc : uc ∈ udf.names) (hic : ic ∈ idf.names) :
    pairsOf ⟨udf.names ++ idf.names, crossRows udf idf⟩ uc ic =
      crossPairs udf idf uc ic := by
  obtain ⟨ju, hju⟩ := Option.isSome_iff_exists.mp (colIdx_isSome huc)
  obtain ⟨ji, hji⟩ := Option.isSome_iff_exists.mp (colIdx_isSome hic)
  have hic' : ic ∉ udf.names := fun h => hdisj ic h hic
  have hcu : colIdx (udf.names ++ idf.names) uc = some ju := by
    rw [colIdx_append, hju]
    rfl
  have hci : colIdx (udf.names ++ idf.names) ic =
      some (ji + udf.names.length) := by
    rw [colIdx_append, colIdx_not_mem hic', hji]
    rfl
  unfold pairsOf
  rw [hcu, hci]
  unfold crossPairs colVals
  rw [hju, hji]
  dsimp only
  unfold crossRows
  rw [List.map_flatMap, List.flatMap_map]
  apply List.flatMap_congr
  intro u hu
  rw [List.map_map, List.map_map]
  apply List.map_congr_left
  intro i hi
  show ((u ++ i).getD ju (.int 0), (u ++ i).getD (ji + udf.names.length) (.int 0)) = _
  have h1 : (u ++ i).getD ju (.int 0) = u.getD ju (.int 0) :=
    List.getD_append u i (.int 0) ju ((hwu u hu) ▸ colIdx_lt hju)
  have h2 : (u ++ i).getD (ji + udf.names.length) (.int 0) = i.getD ji (.int 0) := by
    rw [List.getD_append_right u i (.int 0) (ji + udf.names.length)
        (by rw [hwu u hu]; exact Nat.le_add_left _ _),
      hwu u hu, Nat.add_sub_cancel]
  rw [h1, h2]
  rfl

theorem crossPairs_nodup (udf idf : DF) (uc ic : String)
    (hnu : (colVals udf uc).Nodup) (hni : (colVals idf ic).Nodup) :
    (crossPairs udf idf uc ic).Nodup := by
  unfold crossPairs
  rw [List.nodup_flatMap]
  constructor
  · intro u _
    exact hni.map (fun i j h => by injection h)
  · apply hnu.imp
    intro u v huv p hp1 hp2
    rcases List.mem_map.mp hp1 with ⟨i, _, hi⟩
    rcases List.mem_map.mp hp2 with ⟨j, _, hj⟩
    apply huv
    rw [← hi] at hj
    exact (congrArg Prod.fst hj).symm

/-- Claim C5: on well-formed inputs (rows match columns, disjoint column
names, no column named `key`, id columns present with distinct ids),
`user_item_pairs` without a filter returns the full cross join: the
inputs are handed back untouched, the result's rows are exactly every
user row concatenated with every item row, the row count is `n·m`, and
the result's `(user, item)` keys are exactly the cross product of the
ids, without duplicates. -/
theorem claim_C5 (udf idf : DF) (uc ic : String)
    (hwu : udf.WF) (hwi : idf.WF)
    (hku : "key" ∉ udf.names) (hki : "key" ∉ idf.names)
    (hdisj : ∀ n ∈ udf.names, n ∉ idf.names)
    (huc : uc ∈ udf.names) (hic : ic ∈ idf.names)
    (hnu : (colVals udf uc).Nodup) (hni : (colVals idf ic).Nodup) :
    user_item_pairs udf idf uc ic none =
        some (⟨udf.names ++ idf.names, crossRows udf idf⟩, udf, idf) ∧
      (crossRows udf idf).length = udf.rows.length * idf.rows.length ∧
      pairsOf ⟨udf.names ++ idf.names, crossRows udf idf⟩ uc ic =
        crossPairs udf idf uc ic ∧
      (crossPairs udf idf uc ic).Nodup := by
  refine ⟨?_, crossRows_length udf idf,
    pairsOf_cross udf idf uc ic hwu hwi hdisj huc hic,
    crossPairs_nodup udf idf uc ic hnu hni⟩
  unfold user_item_pairs
  dsimp only
  rw [merge_drop_key udf idf hwu hwi hku hki hdisj,
    dropCol_assign_key udf hwu hku, dropCol_assign_key idf hwi hki]

/-- A concrete instance discharging `claim_C5`'s hypotheses. -/
theorem claim_C5_witness :
    user_item_pairs ⟨["userID", "uf"], [[.int 1, .str "a"], [.int 2, .str "b"]]⟩
        ⟨["itemID"], [[.int 10], [.int 20], [.int 30]]⟩ "userID" "itemID" none =
      some (⟨["userID", "uf", "itemID"],
        [[.int 1, .str "a", .int 10], [.int 1, .str "a", .int 20],
         [.int 1, .str "a", .int 30], [.int 2, .str "b", .int 10],
         [.int 2, .str "b", .int 20], [.int 2, .str "b", .int 30]]⟩,
        ⟨["userID", "uf"], [[.int 1, .str "a"], [.int 2, .str "b"]]⟩,
        ⟨["itemID"], [[.int 10], [.int 20], [.int 30]]⟩) := by
  have h := claim_C5 ⟨["userID", "uf"], [[.int 1, .str "a"], [.int 2, .str "b"]]⟩
    ⟨["itemID"], [[.int 10], [.int 20], [.int 30]]⟩ "userID" "itemID"
    (by decide) (by decide) (by decide) (by decide) (by decide)
    (by decide) (by decide) (by decide) (by decide)
  rw [h.1]
  rfl

theorem bool_eq_of_iff {a b : Bool} (h : a = true ↔ b = true) : a = b := by
  cases a <;> cases b <;> simp_all

theorem get?_eq_some_getD (r : List Val) (j : Nat) (h : j < r.length) :
    r[j]? = some (r.getD j (.int 0)) := by
  rw [List.getElem?_eq_getElem h, List.getD_eq_getElem?_getD,
    List.getElem?_eq_getElem h]
  rfl

theorem projRow_pair {names : List String} {uc ic : String} {ju ji : Nat}
    (hju : colIdx names uc = some ju) (hji : colIdx names ic = some ji)
    (r : List Val) (hlen : names.length ≤ r.length) :
    projRow names [uc, ic] r =
      some [r.getD ju (.int 0), r.getD ji (.int 0)] := by
  have h1 : ju < r.length := Nat.lt_of_lt_of_le (colIdx_lt hju) hlen
  have h2 : ji < r.length := Nat.lt_of_lt_of_le (colIdx_lt hji) hlen
  have ha : r[ju]? = some (r.get ⟨ju, h1⟩) := by
    rw [List.getElem?_eq_getElem h1]
    rfl
  have hb : r[ji]? = some (r.get ⟨ji, h2⟩) := by
    rw [List.getElem?_eq_getElem h2]
    rfl
  have hga : r.getD ju (.int 0) = r.get ⟨ju, h1⟩ := by
    rw [List.getD_eq_getElem?_getD, ha]
    rfl
  have hgb : r.getD ji (.int 0) = r.get ⟨ji, h2⟩ := by
    rw [List.getD_eq_getElem?_getD, hb]
    rfl
  show [uc, ic].mapM (fun c => (colIdx names c).bind (fun j => r.get? j)) = _
  rw [List.mapM_cons, List.mapM_cons, List.mapM_nil]
  simp [hju, hji, List.get?_eq_getElem?, ha, hb, hga, hgb]

theorem pairsOf_eq_map (df : DF) {uc ic : String} {ju ji : Nat}
    (hju : colIdx df.names uc = some ju) (hji : colIdx df.names ic = some ji) :
    pairsOf df uc ic =
      df.rows.map (fun r => (r.getD ju (.int 0), r.getD ji (.int 0))) := by
  unfold pairsOf
  rw [hju, hji]

theorem pairsOf_mk_eq_map (names : List String) (rows : List (List Val))
    {uc ic : String} {ju ji : Nat}
    (hju : colIdx names uc = some ju) (hji : colIdx names ic = some ji) :
    pairsOf ⟨names, rows⟩ uc ic =
      rows.map (fun r => (r.getD ju (.int 0), r.getD ji (.int 0))) :=
  pairsOf_eq_map ⟨names, rows⟩ hju hji

/-- Claim C6: with an exclusion filter whose key columns are present, on the
same well-formed inputs as C5, `user_item_pairs` returns the cross join
minus the rows whose `(user, item)` key occurs in the filter table, and
*no* key present in the filter table ever appears in the output —
unconditionally, whatever duplicate or out-of-product pairs the filter
holds; when moreover the filter holds exactly `k` distinct pairs, all
inside the cross product, the output has exactly `n·m − k` rows. -/
theorem claim_C6 (udf idf f : DF) (uc ic : String)
    (hwu : udf.WF) (hwi : idf.WF) (hwf : f.WF)
    (hku : "key" ∉ udf.names) (hki : "key" ∉ idf.names)
    (hdisj : ∀ n ∈ udf.names, n ∉ idf.names)
    (huc : uc ∈ udf.names) (hic : ic ∈ idf.names)
    (hfu : uc ∈ f.names) (hfi : ic ∈ f.names) :
    user_item_pairs udf idf uc ic (some f) =
        some (⟨udf.names ++ idf.names,
          (crossRows udf idf).filter (fun r =>
            !(f.rows.any (fun fr => decide (projRow f.names [uc, ic] fr =
              projRow (udf.names ++ idf.names) [uc, ic] r))))⟩, udf, idf) ∧
      (∀ p ∈ pairsOf f uc ic,
        p ∉ pairsOf ⟨udf.names ++ idf.names,
          (crossRows udf idf).filter (fun r =>
            !(f.rows.any (fun fr => decide (projRow f.names [uc, ic] fr =
              projRow (udf.names ++ idf.names) [uc, ic] r))))⟩ uc ic) ∧
      ((colVals udf uc).Nodup → (colVals idf ic).Nodup →
        (pairsOf f uc ic).Nodup →
        (∀ p ∈ pairsOf f uc ic, p ∈ crossPairs udf idf uc ic) →
        (⟨udf.names ++ idf.names,
          (crossRows udf idf).filter (fun r =>
            !(f.rows.any (fun fr => decide (projRow f.names [uc, ic] fr =
              projRow (udf.names ++ idf.names) [uc, ic] r))))⟩ : DF).rows.length =
          udf.rows.length * idf.rows.length - (pairsOf f uc ic).length) := by
  obtain ⟨ju, hju⟩ := Option.isSome_iff_exists.mp (colIdx_isSome huc)
  obtain ⟨ji, hji⟩ := Option.isSome_iff_exists.mp (colIdx_isSome hic)
  obtain ⟨jfu, hjfu⟩ := Option.isSome_iff_exists.mp (colIdx_isSome hfu)
  obtain ⟨jfi, hjfi⟩ := Option.isSome_iff_exists.mp (colIdx_isSome hfi)
  have hic' : ic ∉ udf.names := fun h => hdisj ic h hic
  have hcu : colIdx (udf.names ++ idf.names) uc = some ju := by
    rw [colIdx_append, hju]
    rfl
  have hci : colIdx (udf.names ++ idf.names) ic =
      some (ji + udf.names.length) := by
    rw [colIdx_append, colIdx_not_mem hic', hji]
    rfl
  have hcross_wf : ∀ r ∈ crossRows udf idf,
      r.length = (udf.names ++ idf.names).length := by
    intro r hr
    rcases List.mem_flatMap.mp hr with ⟨u, hu, hm⟩
    rcases List.mem_map.mp hm with ⟨i, hi, hii⟩
    rw [← hii, List.length_append, List.length_append, hwu u hu, hwi i hi]
  have hfpairs : pairsOf f uc ic =
      f.rows.map (fun r => (r.getD jfu (.int 0), r.getD jfi (.int 0))) :=
    pairsOf_eq_map f hjfu hjfi
  -- pointwise, the filter condition is key membership in the filter table
  have hpredpt : ∀ r ∈ crossRows udf idf,
      (!(f.rows.any (fun fr => decide (projRow f.names [uc, ic] fr =
          projRow (udf.names ++ idf.names) [uc, ic] r)))) =
        !(decide ((r.getD ju (.int 0), r.getD (ji + udf.names.length) (.int 0)) ∈
          pairsOf f uc ic)) := by
    intro r hr
    apply congrArg Bool.not
    apply bool_eq_of_iff
    rw [List.any_eq_true, decide_eq_true_eq]
    constructor
    · rintro ⟨fr, hfr, heq⟩
      rw [decide_eq_true_eq] at heq
      rw [projRow_pair hjfu hjfi fr (Nat.le_of_eq (hwf fr hfr).symm),
        projRow_pair hcu hci r (Nat.le_of_eq (hcross_wf r hr).symm)] at heq
      simp only [Option.some.injEq, List.cons.injEq, and_true] at heq
      rw [hfpairs]
      exact List.mem_map.mpr ⟨fr, hfr, by rw [heq.1, heq.2]⟩
    · intro hmem
      rw [hfpairs] at hmem
      rcases List.mem_map.mp hmem with ⟨fr, hfr, heq⟩
      refine ⟨fr, hfr, decide_eq_true ?_⟩
      rw [projRow_pair hjfu hjfi fr (Nat.le_of_eq (hwf fr hfr).symm),
        projRow_pair hcu hci r (Nat.le_of_eq (hcross_wf r hr).symm)]
      have h1 := congrArg Prod.fst heq
      have h2 := congrArg Prod.snd heq
      simp only at h1 h2
      rw [h1, h2]
  have hfilrows : (crossRows udf idf).filter (fun r =>
      !(f.rows.any (fun fr => decide (projRow f.names [uc, ic] fr =
        projRow (udf.names ++ idf.names) [uc, ic] r)))) =
      (crossRows udf idf).filter (fun r =>
        !(decide ((r.getD ju (.int 0), r.getD (ji + udf.names.length) (.int 0)) ∈
          pairsOf f uc ic))) :=
    List.filter_congr hpredpt
  have hmapcross : (crossRows udf idf).map
      (fun r => (r.getD ju (.int 0), r.getD (ji + udf.names.length) (.int 0))) =
      crossPairs udf idf uc ic := by
    rw [← pairsOf_mk_eq_map _ _ hcu hci]
    exact pairsOf_cross udf idf uc ic hwu hwi hdisj huc hic
  have houtpairs : pairsOf ⟨udf.names ++ idf.names,
      (crossRows udf idf).filter (fun r =>
        !(f.rows.any (fun fr => decide (projRow f.names [uc, ic] fr =
          projRow (udf.names ++ idf.names) [uc, ic] r))))⟩ uc ic =
      (crossPairs udf idf uc ic).filter
        (fun p => !(decide (p ∈ pairsOf f uc ic))) := by
    rw [pairsOf_mk_eq_map _ _ hcu hci, hfilrows, ← hmapcross,
      List.filter_map]
    rfl
  refine ⟨?_, ?_, ?_⟩
  · unfold user_item_pairs
    dsimp only
    rw [merge_drop_key udf idf hwu hwi hku hki hdisj,
      dropCol_assign_key udf hwu hku, dropCol_assign_key idf hwi hki]
    have hguard : ([uc, ic].all (fun c => decide (c ∈
        (⟨udf.names ++ idf.names, crossRows udf idf⟩ : DF).names)) = true) ∧
        ([uc, ic].all (fun c => decide (c ∈ f.names)) = true) := by
      constructor
      · apply List.all_eq_true.mpr
        intro c hc
        rcases List.mem_cons.mp hc with h | h
        · subst h
          exact decide_eq_true (List.mem_append.mpr (Or.inl huc))
        · rw [List.mem_singleton.mp h]
          exact decide_eq_true (List.mem_append.mpr (Or.inr hic))
      · apply List.all_eq_true.mpr
        intro c hc
        rcases List.mem_cons.mp hc with h | h
        · subst h
          exact decide_eq_true hfu
        · rw [List.mem_singleton.mp h]
          exact decide_eq_true hfi
    unfold filter_by
    rw [if_pos hguard]
    rfl
  · intro p hp hmem
    rw [houtpairs] at hmem
    have := (List.mem_filter.mp hmem).2
    rw [Bool.not_eq_true', decide_eq_false_iff_not] at this
    exact this hp
  · intro hnu hni hfn hfs
    show ((crossRows udf idf).filter _).length = _
    rw [hfilrows]
    have hlen1 : ((crossRows udf idf).filter (fun r =>
        !(decide ((r.getD ju (.int 0), r.getD (ji + udf.names.length) (.int 0)) ∈
          pairsOf f uc ic)))).length =
        ((crossPairs udf idf uc ic).filter
          (fun p => !(decide (p ∈ pairsOf f uc ic)))).length := by
      rw [← hmapcross, List.filter_map, List.length_map]
      rfl
    rw [hlen1]
    have hperm := List.filter_append_perm
      (fun p => !(decide (p ∈ pairsOf f uc ic))) (crossPairs udf idf uc ic)
    have hnotnot : (crossPairs udf idf uc ic).filter (fun p =>
        !(!(decide (p ∈ pairsOf f uc ic)))) =
        (crossPairs udf idf uc ic).filter (fun p => decide (p ∈ pairsOf f uc ic)) := by
      apply List.filter_congr
      intro p _
      rw [Bool.not_not]
    have hmemperm : List.Perm ((crossPairs udf idf uc ic).filter
        (fun p => decide (p ∈ pairsOf f uc ic))) (pairsOf f uc ic) := by
      rw [List.perm_ext_iff_of_nodup
        ((crossPairs_nodup udf idf uc ic hnu hni).filter _) hfn]
      intro p
      rw [List.mem_filter]
      constructor
      · rintro ⟨_, h2⟩
        exact of_decide_eq_true h2
      · intro hp
        exact ⟨hfs p hp, decide_eq_true hp⟩
    have hcplen : (crossPairs udf idf uc ic).length =
        udf.rows.length * idf.rows.length := by
      rw [← hmapcross, List.length_map, crossRows_length]
    have hsum := hperm.length_eq
    rw [List.length_append, hnotnot, hmemperm.length_eq, hcplen] at hsum
    omega

/-- A concrete instance discharging `claim_C6`'s hypotheses: 2 users,
3 items, a 2-pair filter inside the cross product; the output is the
4-row remainder (`2·3 − 2` rows) and the inputs come back untouched. -/
theorem claim_C6_witness :
    user_item_pairs ⟨["userID", "uf"], [[.int 1, .str "a"], [.int 2, .str "b"]]⟩
        ⟨["itemID"], [[.int 10], [.int 20], [.int 30]]⟩ "userID" "itemID"
        (some ⟨["userID", "itemID"], [[.int 1, .int 10], [.int 2, .int 30]]⟩) =
      some (⟨["userID", "uf", "itemID"],
        [[.int 1, .str "a", .int 20], [.int 1, .str "a", .int 30],
         [.int 2, .str "b", .int 10], [.int 2, .str "b", .int 20]]⟩,
        ⟨["userID", "uf"], [[.int 1, .str "a"], [.int 2, .str "b"]]⟩,
        ⟨["itemID"], [[.int 10], [.int 20], [.int 30]]⟩) ∧
      (⟨["userID", "uf", "itemID"],
        [[.int 1, .str "a", .int 20], [.int 1, .str "a", .int 30],
         [.int 2, .str "b", .int 10], [.int 2, .str "b", .int 20]]⟩ :
        DF).rows.length = 2 * 3 - 2 := by
  have h := claim_C6 ⟨["userID", "uf"], [[.int 1, .str "a"], [.int 2, .str "b"]]⟩
    ⟨["itemID"], [[.int 10], [.int 20], [.int 30]]⟩
    ⟨["userID", "itemID"], [[.int 1, .int 10], [.int 2, .int 30]]⟩
    "userID" "itemID" (by decide) (by decide) (by decide) (by decide)
    (by decide) (by decide) (by decide) (by decide) (by decide) (by decide)
  constructor
  · rw [h.1]
    rfl
  · have h2 := h.2.2 (by decide) (by decide) (by decide) (by decide)
    exact h2

/-! ## Input mutation (C7) -/

theorem append_mid_underscore_ne_key (n : String) (c : Char) :
    n ++ ⟨['_', c]⟩ ≠ "key" := by
  intro h
  have hd : n.data ++ ['_', c] = ['k', 'e', 'y'] := by
    have h2 := congrArg String.data h
    rwa [String.data_append] at h2
  have hlen : n.data.length + 2 = 3 := by
    have h3 := congrArg List.length hd
    simpa using h3
  obtain ⟨a, ha⟩ := List.length_eq_one.mp (by omega : n.data.length = 1)
  rw [ha] at hd
  simp only [List.cons_append, List.nil_append, List.cons.injEq] at hd
  exact absurd hd.2.1 (by decide)

theorem suffixName_ne_key {other : List String} {n sfx : String}
    (hn : n ≠ "key") (hsfx : sfx = ⟨['_', 'x']⟩ ∨ sfx = ⟨['_', 'y']⟩) :
    suffixName other sfx n ≠ "key" := by
  unfold suffixName
  split
  · rcases hsfx with h | h <;> rw [h] <;>
      exact append_mid_underscore_ne_key n _
  · exact hn

/-- Claim C7, counterexample: on a user table that already contains a column
named `key`, `user_item_pairs` destroys that column in place — the
returned post-state of the user table has lost the original `key`
column and its values, so the input is observably mutated. -/
theorem claim_C7_counterexample :
    user_item_pairs ⟨["userID", "key"], [[.int 1, .str "x"]]⟩
        ⟨["itemID"], [[.int 10]]⟩ "userID" "itemID" none =
      some (⟨["userID", "itemID"], [[.int 1, .int 10]]⟩,
        ⟨["userID"], [[.int 1]]⟩, ⟨["itemID"], [[.int 10]]⟩) ∧
      (⟨["userID"], [[.int 1]]⟩ : DF) ≠
        ⟨["userID", "key"], [[.int 1, .str "x"]]⟩ := by
  exact ⟨rfl, by decide⟩

/-- Claim C7, amended: for every pair of *well-formed* input tables neither
of which already has a column named `key`, `user_item_pairs` returns
both inputs observably unchanged, and the temporary join key is absent
from the output's columns. -/
theorem claim_C7 (udf idf : DF) (uc ic : String) (filter? : Option DF)
    (hwu : udf.WF) (hwi : idf.WF)
    (hku : "key" ∉ udf.names) (hki : "key" ∉ idf.names) :
    ∀ m u2 i2, user_item_pairs udf idf uc ic filter? = some (m, u2, i2) →
      u2 = udf ∧ i2 = idf ∧ "key" ∉ m.names := by
  intro m u2 i2 hcall
  have hkeymerge : "key" ∉ (dropCol (mergeOnKey
      (assignConstCol udf "key" (.int 1))
      (assignConstCol idf "key" (.int 1))) "key").names := by
    rw [assignConstCol_key udf hku, assignConstCol_key idf hki]
    unfold mergeOnKey
    rw [colIdx_key_append udf.names hku, colIdx_key_append idf.names hki]
    have herase : (idf.names ++ ["key"]).eraseIdx idf.names.length =
        idf.names := by
      rw [List.eraseIdx_append_of_length_le (Nat.le_refl _)]
      simp
    simp only [Option.getD_some, herase]
    unfold dropCol
    have hxnames : (udf.names ++ ["key"]).map
        (suffixName (idf.names ++ ["key"]) "_x") =
        (udf.names.map (suffixName (idf.names ++ ["key"]) "_x")) ++ ["key"] := by
      rw [List.map_append]
      congr 1
    have hxkeyfree : ∀ s ∈ udf.names.map
        (suffixName (idf.names ++ ["key"]) "_x"), s ≠ "key" := by
      intro s hs
      rcases List.mem_map.mp hs with ⟨n, hn, hns⟩
      rw [← hns]
      exact suffixName_ne_key (fun he => hku (he ▸ hn)) (Or.inl rfl)
    have hykeyfree : ∀ s ∈ idf.names.map
        (suffixName (udf.names ++ ["key"]) "_y"), s ≠ "key" := by
      intro s hs
      rcases List.mem_map.mp hs with ⟨n, hn, hns⟩
      rw [← hns]
      exact suffixName_ne_key (fun he => hki (he ▸ hn)) (Or.inr rfl)
    have hfind : colIdx ((udf.names ++ ["key"]).map
        (suffixName (idf.names ++ ["key"]) "_x") ++
        idf.names.map (suffixName (udf.names ++ ["key"]) "_y")) "key" =
        some (udf.names.map (suffixName (idf.names ++ ["key"]) "_x")).length := by
      rw [hxnames, List.append_assoc, colIdx_append,
        colIdx_not_mem (fun hmem => hxkeyfree "key" hmem rfl)]
      have : colIdx ("key" :: idf.names.map (suffixName (udf.names ++ ["key"]) "_y"))
          "key" = some 0 := by
        unfold colIdx
        rw [List.findIdx?_cons]
        simp
      rw [List.singleton_append, this]
      simp
    rw [hfind]
    dsimp only
    rw [hxnames, List.append_assoc, List.singleton_append,
      List.eraseIdx_append_of_length_le (Nat.le_refl _), Nat.sub_self]
    intro hmem
    rcases List.mem_append.mp hmem with h | h
    · exact hxkeyfree "key" h rfl
    · exact hykeyfree "key" (by simpa using h) rfl
  have hu2 : dropCol (assignConstCol udf "key" (.int 1)) "key" = udf :=
    dropCol_assign_key udf hwu hku
  have hi2 : dropCol (assignConstCol idf "key" (.int 1)) "key" = idf :=
    dropCol_assign_key idf hwi hki
  rcases filter? with _ | f
  · have hstep : user_item_pairs udf idf uc ic none =
        some (dropCol (mergeOnKey (assignConstCol udf "key" (.int 1))
            (assignConstCol idf "key" (.int 1))) "key",
          dropCol (assignConstCol udf "key" (.int 1)) "key",
          dropCol (assignConstCol idf "key" (.int 1)) "key") := rfl
    rw [hstep, Option.some.injEq] at hcall
    have hm : m = dropCol (mergeOnKey (assignConstCol udf "key" (.int 1))
        (assignConstCol idf "key" (.int 1))) "key" :=
      (congrArg (fun t => t.1) hcall).symm
    have hu : u2 = dropCol (assignConstCol udf "key" (.int 1)) "key" :=
      (congrArg (fun t => t.2.1) hcall).symm
    have hi : i2 = dropCol (assignConstCol idf "key" (.int 1)) "key" :=
      (congrArg (fun t => t.2.2) hcall).symm
    exact ⟨hu.trans hu2, hi.trans hi2, hm ▸ hkeymerge⟩
  · have hstep : user_item_pairs udf idf uc ic (some f) =
        (filter_by (dropCol (mergeOnKey (assignConstCol udf "key" (.int 1))
            (assignConstCol idf "key" (.int 1))) "key") f [uc, ic]).map
          (fun m3 => (m3, dropCol (assignConstCol udf "key" (.int 1)) "key",
            dropCol (assignConstCol idf "key" (.int 1)) "key")) := rfl
    rw [hstep] at hcall
    rcases hfb : filter_by (dropCol (mergeOnKey
        (assignConstCol udf "key" (.int 1))
        (assignConstCol idf "key" (.int 1))) "key") f [uc, ic] with _ | m3
    · rw [hfb] at hcall
      exact absurd hcall (by simp)
    · rw [hfb] at hcall
      have hcall2 : (m3, dropCol (assignConstCol udf "key" (.int 1)) "key",
          dropCol (assignConstCol idf "key" (.int 1)) "key") = (m, u2, i2) :=
        Option.some.injEq _ _ ▸ hcall
      have hm : m = m3 := (congrArg (fun t => t.1) hcall2).symm
      have hu : u2 = dropCol (assignConstCol udf "key" (.int 1)) "key" :=
        (congrArg (fun t => t.2.1) hcall2).symm
      have hi : i2 = dropCol (assignConstCol idf "key" (.int 1)) "key" :=
        (congrArg (fun t => t.2.2) hcall2).symm
      refine ⟨hu.trans hu2, hi.trans hi2, ?_⟩
      have hnames : m3.names = (dropCol (mergeOnKey
          (assignConstCol udf "key" (.int 1))
          (assignConstCol idf "key" (.int 1))) "key").names := by
        unfold filter_by at hfb
        by_cases hg : ([uc, ic].all (fun c => decide (c ∈ (dropCol (mergeOnKey
            (assignConstCol udf "key" (.int 1))
            (assignConstCol idf "key" (.int 1))) "key").names)) = true) ∧
            ([uc, ic].all (fun c => decide (c ∈ f.names)) = true)
        · rw [if_pos hg, Option.some.injEq] at hfb
          rw [← hfb]
        · rw [if_neg hg] at hfb
          exact absurd hfb (by simp)
      rw [hm, hnames]
      exact hkeymerge

/-- A concrete instance discharging `claim_C7`'s hypotheses. -/
theorem claim_C7_witness :
    (⟨["userID"], [[.int 7]]⟩ : DF) = ⟨["userID"], [[.int 7]]⟩ ∧
      "key" ∉ (⟨["userID", "itemID"], [[.int 7, .int 10]]⟩ : DF).names := by
  have h := claim_C7 ⟨["userID"], [[.int 7]]⟩ ⟨["itemID"], [[.int 10]]⟩
    "userID" "itemID" none (by decide) (by decide) (by decide) (by decide)
    ⟨["userID", "itemID"], [[.int 7, .int 10]]⟩
    ⟨["userID"], [[.int 7]]⟩ ⟨["itemID"], [[.int 10]]⟩ rfl
  exact ⟨h.1.symm ▸ rfl, h.2.2⟩

/-! ## Filter algebra (C9) -/

/-- Claim C9: part (i), `filter_by` with the filter table equal to the source table
on the same key columns empties the source; (ii) with an empty filter
table (key columns present) the source comes back unchanged, row for
row, names and all; (iii) only the *set* of key projections of the
filter table matters, so duplicate filter keys have no additional
effect. -/
theorem claim_C9 :
    (∀ (df : DF) (cols : List String), (∀ c ∈ cols, c ∈ df.names) →
      filter_by df df cols = some ⟨df.names, []⟩) ∧
    (∀ (df fdf : DF) (cols : List String), fdf.rows = [] →
      (∀ c ∈ cols, c ∈ df.names) → (∀ c ∈ cols, c ∈ fdf.names) →
      filter_by df fdf cols = some df) ∧
    (∀ (df f1 f2 : DF) (cols : List String),
      (∀ c ∈ cols, c ∈ f1.names) → (∀ c ∈ cols, c ∈ f2.names) →
      (f1.rows.map (projRow f1.names cols)) ⊆
        (f2.rows.map (projRow f2.names cols)) →
      (f2.rows.map (projRow f2.names cols)) ⊆
        (f1.rows.map (projRow f1.names cols)) →
      filter_by df f1 cols = filter_by df f2 cols) := by
  refine ⟨?_, ?_, ?_⟩
  · intro df cols h
    unfold filter_by
    rw [if_pos ⟨List.all_eq_true.mpr (fun c hc => decide_eq_true (h c hc)),
      List.all_eq_true.mpr (fun c hc => decide_eq_true (h c hc))⟩]
    congr 1
    cases df with
    | mk names rows =>
        simp only [DF.mk.injEq, true_and]
        apply List.filter_eq_nil_iff.mpr
        intro r hr
        have hany : ((⟨names, rows⟩ : DF).rows.any (fun fr =>
            decide (projRow names cols fr = projRow names cols r))) = true :=
          List.any_eq_true.mpr ⟨r, hr, decide_eq_true rfl⟩
        simp only [hany]
        decide
  · intro df fdf cols hempty hdf hfdf
    unfold filter_by
    rw [if_pos ⟨List.all_eq_true.mpr (fun c hc => decide_eq_true (hdf c hc)),
      List.all_eq_true.mpr (fun c hc => decide_eq_true (hfdf c hc))⟩, hempty]
    have hfil : df.rows.filter (fun r =>
        !(List.any [] (fun fr =>
          decide (projRow fdf.names cols fr = projRow df.names cols r)))) =
        df.rows := by
      apply List.filter_eq_self.mpr
      intro r _
      rfl
    rw [hfil]
  · intro df f1 f2 cols h1 h2 h12 h21
    unfold filter_by
    by_cases hdf : cols.all (fun c => decide (c ∈ df.names)) = true
    · rw [if_pos ⟨hdf, List.all_eq_true.mpr (fun c hc => decide_eq_true (h1 c hc))⟩,
        if_pos ⟨hdf, List.all_eq_true.mpr (fun c hc => decide_eq_true (h2 c hc))⟩]
      congr 1
      cases df with
      | mk names rows =>
          simp only [DF.mk.injEq, true_and]
          apply List.filter_congr
          intro r _
          apply congrArg Bool.not
          apply bool_eq_of_iff
          rw [List.any_eq_true, List.any_eq_true]
          constructor
          · rintro ⟨fr, hfr, heq⟩
            rw [decide_eq_true_eq] at heq
            have hm : projRow names cols r ∈
                f2.rows.map (projRow f2.names cols) :=
              h12 (List.mem_map.mpr ⟨fr, hfr, heq⟩)
            rcases List.mem_map.mp hm with ⟨fr2, hfr2, heq2⟩
            exact ⟨fr2, hfr2, decide_eq_true heq2⟩
          · rintro ⟨fr, hfr, heq⟩
            rw [decide_eq_true_eq] at heq
            have hm : projRow names cols r ∈
                f1.rows.map (projRow f1.names cols) :=
              h21 (List.mem_map.mpr ⟨fr, hfr, heq⟩)
            rcases List.mem_map.mp hm with ⟨fr1, hfr1, heq1⟩
            exact ⟨fr1, hfr1, decide_eq_true heq1⟩
    · rw [if_neg (fun h => hdf h.1), if_neg (fun h => hdf h.1)]

/-- Concrete instances discharging `claim_C9`'s hypotheses: a source
filtered by itself empties; an empty filter is the identity; a filter
with a duplicated key behaves like the deduplicated one. -/
theorem claim_C9_witness :
    filter_by ⟨["k"], [[.int 1], [.int 2]]⟩ ⟨["k"], [[.int 1], [.int 2]]⟩
        ["k"] = some ⟨["k"], []⟩ ∧
      filter_by ⟨["k"], [[.int 1], [.int 2]]⟩ ⟨["k"], []⟩ ["k"] =
        some ⟨["k"], [[.int 1], [.int 2]]⟩ ∧
      filter_by ⟨["k"], [[.int 1], [.int 2]]⟩ ⟨["k"], [[.int 1], [.int 1]]⟩
        ["k"] =
        filter_by ⟨["k"], [[.int 1], [.int 2]]⟩ ⟨["k"], [[.int 1]]⟩ ["k"] := by
  refine ⟨claim_C9.1 ⟨["k"], [[.int 1], [.int 2]]⟩ ["k"] (by decide),
    claim_C9.2.1 ⟨["k"], [[.int 1], [.int 2]]⟩ ⟨["k"], []⟩ ["k"] rfl
      (by decide) (by decide),
    claim_C9.2.2 ⟨["k"], [[.int 1], [.int 2]]⟩ ⟨["k"], [[.int 1], [.int 1]]⟩
      ⟨["k"], [[.int 1]]⟩ ["k"] (by decide) (by decide) (by decide) (by decide)⟩

/-! ## Negative-sampler lemmas (towards C3, C4, C10) -/

theorem nodup_nfUsers (rows : List NFRow) : (nfUsers rows).Nodup :=
  nodup_uniqueFirst _

theorem nodup_nfItems (rows : List NFRow) : (nfItems rows).Nodup :=
  nodup_uniqueFirst _

/-- A flat map whose blocks vanish away from `u` collapses to `u`'s
block. -/
theorem flatMap_eq_single {α β : Type} [DecidableEq α] (l : List α)
    (hl : l.Nodup) (g : α → List β) (u : α)
    (h : ∀ v ∈ l, v ≠ u → g v = []) :
    l.flatMap g = if u ∈ l then g u else [] := by
  induction l with
  | nil => simp
  | cons b t ih =>
      rw [List.flatMap_cons]
      by_cases hb : b = u
      · subst hb
        have ht : t.flatMap g = [] := by
          apply List.flatMap_eq_nil_iff.mpr
          intro v hv
          exact h v (List.mem_cons_of_mem b hv)
            (fun he => (List.nodup_cons.mp hl).1 (he ▸ hv))
        rw [ht, List.append_nil, if_pos (List.mem_cons_self b t)]
      · rw [h b (List.mem_cons_self b t) hb, List.nil_append,
          ih (List.nodup_cons.mp hl).2
            (fun v hv hne => h v (List.mem_cons_of_mem b hv) hne)]
        have hiff : (u ∈ b :: t) ↔ (u ∈ t) := by
          rw [List.mem_cons]
          constructor
          · rintro (he | hm)
            · exact absurd he.symm hb
            · exact hm
          · exact Or.inr
        by_cases hu : u ∈ t
        · rw [if_pos hu, if_pos (hiff.mpr hu)]
        · rw [if_neg hu, if_neg (fun hm => hu (hiff.mp hm))]

theorem mem_dfAll {rows : List NFRow} {x : FBRow} :
    x ∈ dfAll rows ↔ x.u ∈ nfUsers rows ∧ x.i ∈ nfItems rows ∧
      x.rating = (if (x.u, x.i) ∈ nfTuples rows then 1 else 0) := by
  unfold dfAll userBlock
  rw [List.mem_flatMap]
  constructor
  · rintro ⟨u, hu, hm⟩
    rcases List.mem_map.mp hm with ⟨i, hi, hx⟩
    rw [← hx]
    exact ⟨hu, hi, rfl⟩
  · rintro ⟨hu, hi, hr⟩
    refine ⟨x.u, hu, List.mem_map.mpr ⟨x.i, hi, ?_⟩⟩
    cases x with
    | mk u i rating =>
        simp only at hr
        rw [hr]

theorem userBlock_filter_u (rows : List NFRow) (v u : Nat) :
    (userBlock rows v).filter (fun x => decide (x.u = u)) =
      if v = u then userBlock rows v else [] := by
  unfold userBlock
  by_cases hv : v = u
  · rw [if_pos hv]
    apply List.filter_eq_self.mpr
    intro x hx
    rcases List.mem_map.mp hx with ⟨i, _, hi⟩
    rw [← hi]
    exact decide_eq_true hv
  · rw [if_neg hv]
    apply List.filter_eq_nil_iff.mpr
    intro x hx
    rcases List.mem_map.mp hx with ⟨i, _, hi⟩
    rw [← hi]
    simp [hv]

theorem dfAll_filter_u (rows : List NFRow) (u : Nat) :
    (dfAll rows).filter (fun x => decide (x.u = u)) =
      if u ∈ nfUsers rows then userBlock rows u else [] := by
  unfold dfAll
  rw [List.filter_flatMap]
  have h := flatMap_eq_single (nfUsers rows) (nodup_nfUsers rows)
    (fun v => (userBlock rows v).filter (fun x => decide (x.u = u))) u
    (fun v _ hv => by
      show (userBlock rows v).filter (fun x => decide (x.u = u)) = []
      rw [userBlock_filter_u, if_neg hv])
  rw [h]
  by_cases hu : u ∈ nfUsers rows
  · rw [if_pos hu, if_pos hu]
    show (userBlock rows u).filter (fun x => decide (x.u = u)) = _
    rw [userBlock_filter_u, if_pos rfl]
  · rw [if_neg hu, if_neg hu]

/-- The distinct unobserved items of user `u`. -/
def negItems (rows : List NFRow) (u : Nat) : List Nat :=
  (nfItems rows).filter (fun i => decide ((u, i) ∉ nfTuples rows))

theorem negGroup_eq (rows : List NFRow) (u : Nat) :
    negGroup (dfAll rows) u =
      if u ∈ nfUsers rows then
        (negItems rows u).map (fun i => ⟨u, i, 0⟩) else [] := by
  unfold negGroup negPart
  rw [List.filter_filter]
  have hsplit : (dfAll rows).filter (fun a =>
      decide (a.u = u) && decide (a.rating = 0)) =
      ((dfAll rows).filter (fun x => decide (x.u = u))).filter
        (fun x => decide (x.rating = 0)) := by
    rw [List.filter_filter]
    apply List.filter_congr
    intro x _
    rw [Bool.and_comm]
  rw [hsplit, dfAll_filter_u]
  by_cases hu : u ∈ nfUsers rows
  · rw [if_pos hu, if_pos hu]
    unfold userBlock negItems
    rw [List.filter_map]
    have hfil : (nfItems rows).filter ((fun x => decide (x.rating = 0)) ∘
        (fun i => (⟨u, i, if (u, i) ∈ nfTuples rows then 1 else 0⟩ : FBRow))) =
        (nfItems rows).filter (fun i => decide ((u, i) ∉ nfTuples rows)) := by
      apply List.filter_congr
      intro i _
      show decide ((if (u, i) ∈ nfTuples rows then 1 else 0) = 0) = _
      by_cases hm : (u, i) ∈ nfTuples rows <;> simp [hm]
    rw [hfil]
    apply List.map_congr_left
    intro i hi
    have hm : (u, i) ∉ nfTuples rows :=
      of_decide_eq_true (List.mem_filter.mp hi).2
    show (⟨u, i, if (u, i) ∈ nfTuples rows then 1 else 0⟩ : FBRow) = _
    rw [if_neg hm]
  · rw [if_neg hu, if_neg hu]
    rfl

theorem negItems_length (rows : List NFRow) (u : Nat) :
    (negItems rows u).length = (nfItems rows).length - posFor rows u := by
  unfold negItems posFor
  have h := List.length_eq_countP_add_countP
    (fun i => decide ((u, i) ∈ nfTuples rows)) (nfItems rows)
  have h2 : (nfItems rows).countP (fun i =>
      ¬(decide ((u, i) ∈ nfTuples rows))) =
      (nfItems rows).countP (fun i => decide ((u, i) ∉ nfTuples rows)) := by
    apply List.countP_congr
    intro i _
    simp
  rw [h2] at h
  rw [← List.countP_eq_length_filter, ← List.countP_eq_length_filter]
  omega

theorem negGroup_length (rows : List NFRow) (u : Nat)
    (hu : u ∈ nfUsers rows) :
    (negGroup (dfAll rows) u).length =
      (nfItems rows).length - posFor rows u := by
  rw [negGroup_eq, if_pos hu, List.length_map, negItems_length]

theorem getD_mem {g : List FBRow} {j : Nat} (hj : j < g.length) :
    g.getD j ⟨0, 0, 0⟩ ∈ g := by
  rw [List.getD_eq_getElem?_getD, List.getElem?_eq_getElem hj]
  exact List.getElem_mem hj

theorem sampleGroup_subset {s : Sampler} (hs : ValidSampler s)
    (seed npos : Nat) (g : List FBRow) :
    ∀ x ∈ sampleGroup s seed npos g, x ∈ g := by
  intro x hx
  rcases List.mem_map.mp hx with ⟨j, hj, hjx⟩
  have hlt : j < g.length :=
    (hs seed g.length (min npos g.length) (Nat.min_le_right _ _)).2.2 j hj
  rw [← hjx]
  exact getD_mem hlt

theorem sampleGroup_length {s : Sampler} (hs : ValidSampler s)
    (seed npos : Nat) (g : List FBRow) :
    (sampleGroup s seed npos g).length = min npos g.length := by
  unfold sampleGroup
  rw [List.length_map]
  exact (hs seed g.length (min npos g.length) (Nat.min_le_right _ _)).1

theorem sampleGroup_nodup {s : Sampler} (hs : ValidSampler s)
    (seed npos : Nat) {g : List FBRow} (hg : g.Nodup) :
    (sampleGroup s seed npos g).Nodup := by
  have hv := hs seed g.length (min npos g.length) (Nat.min_le_right _ _)
  apply List.Nodup.map_on ?_ hv.2.1
  intro j1 h1 j2 h2 heq
  have hl1 : j1 < g.length := hv.2.2 j1 h1
  have hl2 : j2 < g.length := hv.2.2 j2 h2
  rw [List.getD_eq_getElem?_getD, List.getElem?_eq_getElem hl1,
    List.getD_eq_getElem?_getD, List.getElem?_eq_getElem hl2] at heq
  exact (List.Nodup.getElem_inj_iff hg).mp heq

theorem mem_negGroupUsers {all : List FBRow} {u : Nat} :
    u ∈ negGroupUsers all ↔ u ∈ (negPart all).map (fun r => r.u) := by
  unfold negGroupUsers
  rw [(List.perm_insertionSort _ _).mem_iff, mem_uniqueFirst]

theorem nodup_negGroupUsers (all : List FBRow) :
    (negGroupUsers all).Nodup := by
  unfold negGroupUsers
  exact (List.perm_insertionSort _ _).nodup_iff.mpr (nodup_uniqueFirst _)

theorem negGroup_u {all : List FBRow} {u : Nat} :
    ∀ x ∈ negGroup all u, x.u = u ∧ x.rating = 0 ∧ x ∈ all := by
  intro x hx
  have h1 := List.mem_filter.mp hx
  have h2 := List.mem_filter.mp h1.1
  exact ⟨of_decide_eq_true h1.2, of_decide_eq_true h2.2, h2.1⟩

theorem negGroup_nil_of_not_mem {all : List FBRow} {u : Nat}
    (hu : u ∉ negGroupUsers all) : negGroup all u = [] := by
  rcases hg : negGroup all u with _ | ⟨x, t⟩
  · rfl
  · exfalso
    have hx : x ∈ negGroup all u := by
      rw [hg]
      exact List.mem_cons_self x t
    have h := negGroup_u x hx
    apply hu
    rw [mem_negGroupUsers]
    apply List.mem_map.mpr
    exact ⟨x, (List.mem_filter.mp hx).1, h.1⟩

theorem negSample_filter_u {s : Sampler} (hs : ValidSampler s)
    (seed npos : Nat) (all : List FBRow) (u : Nat) :
    (negSample s seed npos all).filter (fun x => decide (x.u = u)) =
      if u ∈ negGroupUsers all then
        sampleGroup s seed npos (negGroup all u) else [] := by
  unfold negSample
  rw [List.filter_flatMap]
  have h := flatMap_eq_single (negGroupUsers all) (nodup_negGroupUsers all)
    (fun v => (sampleGroup s seed npos (negGroup all v)).filter
      (fun x => decide (x.u = u))) u
    (fun v _ hv => by
      show (sampleGroup s seed npos (negGroup all v)).filter
        (fun x => decide (x.u = u)) = []
      apply List.filter_eq_nil_iff.mpr
      intro x hx
      have hxu : x.u = v :=
        (negGroup_u x (sampleGroup_subset hs seed npos _ x hx)).1
      simp [hxu, hv])
  rw [h]
  by_cases hu : u ∈ negGroupUsers all
  · rw [if_pos hu, if_pos hu]
    show (sampleGroup s seed npos (negGroup all u)).filter
      (fun x => decide (x.u = u)) = _
    apply List.filter_eq_self.mpr
    intro x hx
    exact decide_eq_true
      (negGroup_u x (sampleGroup_subset hs seed npos _ x hx)).1
  · rw [if_neg hu, if_neg hu]

theorem negSample_rating {s : Sampler} (hs : ValidSampler s)
    (seed npos : Nat) (all : List FBRow) :
    ∀ x ∈ negSample s seed npos all, x.rating = 0 ∧ x ∈ all := by
  intro x hx
  rcases List.mem_flatMap.mp hx with ⟨v, _, hxv⟩
  have h := negGroup_u x (sampleGroup_subset hs seed npos _ x hxv)
  exact ⟨h.2.1, h.2.2⟩

theorem nodup_dfAll (rows : List NFRow) : (dfAll rows).Nodup := by
  unfold dfAll
  rw [List.nodup_flatMap]
  constructor
  · intro u _
    unfold userBlock
    apply List.Nodup.map_on ?_ (nodup_nfItems rows)
    intro i1 _ i2 _ heq
    exact congrArg FBRow.i heq
  · apply (nodup_nfUsers rows).imp
    intro u v huv x h1 h2
    unfold userBlock at h1 h2
    rcases List.mem_map.mp h1 with ⟨i1, _, hi1⟩
    rcases List.mem_map.mp h2 with ⟨i2, _, hi2⟩
    apply huv
    rw [← hi1] at hi2
    exact (congrArg FBRow.u hi2).symm

theorem nodup_negGroup (rows : List NFRow) (u : Nat) :
    (negGroup (dfAll rows) u).Nodup :=
  ((nodup_dfAll rows).filter _).filter _

theorem nodup_negSample {s : Sampler} (hs : ValidSampler s)
    (seed npos : Nat) (rows : List NFRow) :
    (negSample s seed npos (dfAll rows)).Nodup := by
  unfold negSample
  rw [List.nodup_flatMap]
  constructor
  · intro v _
    exact sampleGroup_nodup hs seed npos (nodup_negGroup rows v)
  · apply (nodup_negGroupUsers (dfAll rows)).imp
    intro v w hvw x h1 h2
    apply hvw
    have hxv := (negGroup_u x (sampleGroup_subset hs seed npos _ x h1)).1
    have hxw := (negGroup_u x (sampleGroup_subset hs seed npos _ x h2)).1
    rw [← hxv, ← hxw]

theorem validSampler_firstIdx : ValidSampler firstIdx := by
  intro seed len k hk
  refine ⟨List.length_range k, List.nodup_range k, ?_⟩
  intro j hj
  exact Nat.lt_of_lt_of_le (List.mem_range.mp hj) hk

theorem dfAll_congr {r1 r2 : List NFRow}
    (hu : nfUsers r1 = nfUsers r2) (hi : nfItems r1 = nfItems r2)
    (ht : ∀ p : Nat × Nat, p ∈ nfTuples r1 ↔ p ∈ nfTuples r2) :
    dfAll r1 = dfAll r2 := by
  unfold dfAll userBlock
  rw [hu, hi]
  apply List.flatMap_congr
  intro u _
  apply List.map_congr_left
  intro i _
  exact congrArg (fun n => (⟨u, i, n⟩ : FBRow)) (if_congr (ht (u, i)) rfl rfl)

/-- The whole sampler output is a function of the dense frame. -/
theorem nfs_congr (s : Sampler) (seed npos : Nat) {r1 r2 : List NFRow}
    (hu : nfUsers r1 = nfUsers r2) (hi : nfItems r1 = nfItems r2)
    (ht : ∀ p : Nat × Nat, p ∈ nfTuples r1 ↔ p ∈ nfTuples r2) :
    negative_feedback_sampler s seed npos r1 =
      negative_feedback_sampler s seed npos r2 := by
  unfold negative_feedback_sampler
  rw [dfAll_congr hu hi ht]

/-- Claim C3, counterexample: two row-permuted inputs with the same derived
sets U, I, S (they are even permutations of one another) on which the
sampler — instantiated with a concrete position sampler obeying the
sampling-without-replacement contract — produces different outputs: the
per-group draw is positional, so it depends on the derived
first-occurrence *order*, not only on the sets. -/
theorem claim_C3_counterexample :
    List.Perm ([⟨1, 10, []⟩, ⟨2, 20, []⟩, ⟨2, 30, []⟩] : List NFRow)
        [⟨2, 30, []⟩, ⟨2, 20, []⟩, ⟨1, 10, []⟩] ∧
      List.Perm (nfUsers [⟨1, 10, []⟩, ⟨2, 20, []⟩, ⟨2, 30, []⟩])
        (nfUsers [⟨2, 30, []⟩, ⟨2, 20, []⟩, ⟨1, 10, []⟩]) ∧
      List.Perm (nfItems [⟨1, 10, []⟩, ⟨2, 20, []⟩, ⟨2, 30, []⟩])
        (nfItems [⟨2, 30, []⟩, ⟨2, 20, []⟩, ⟨1, 10, []⟩]) ∧
      List.Perm (nfTuples [⟨1, 10, []⟩, ⟨2, 20, []⟩, ⟨2, 30, []⟩])
        (nfTuples [⟨2, 30, []⟩, ⟨2, 20, []⟩, ⟨1, 10, []⟩]) ∧
      negative_feedback_sampler firstIdx 0 1
          [⟨1, 10, []⟩, ⟨2, 20, []⟩, ⟨2, 30, []⟩] ≠
        negative_feedback_sampler firstIdx 0 1
          [⟨2, 30, []⟩, ⟨2, 20, []⟩, ⟨1, 10, []⟩] := by
  refine ⟨by decide, by decide, by decide, by decide, by decide⟩

/-- Claim C3, amended: `negative_feedback_sampler` is deterministic in the
seed and the derived *sequences*: for any position sampler, two calls
with the same seed whose inputs derive the same first-occurrence user
sequence, the same first-occurrence item sequence and the same set of
observed pairs produce identical output; in particular repeated calls
on identical input with the same seed give identical output, and the
other input columns never influence the result. -/
theorem claim_C3 (s : Sampler) (seed npos : Nat) (r1 r2 : List NFRow)
    (hu : nfUsers r1 = nfUsers r2) (hi : nfItems r1 = nfItems r2)
    (ht : ∀ p : Nat × Nat, p ∈ nfTuples r1 ↔ p ∈ nfTuples r2) :
    negative_feedback_sampler s seed npos r1 =
      negative_feedback_sampler s seed npos r2 :=
  nfs_congr s seed npos hu hi ht

/-- A concrete instance discharging `claim_C3`'s hypotheses: the two
inputs differ only in a column the sampler never reads. -/
theorem claim_C3_witness :
    negative_feedback_sampler firstIdx 42 1 [⟨1, 10, [5]⟩] =
      negative_feedback_sampler firstIdx 42 1 [⟨1, 10, [7]⟩] :=
  claim_C3 firstIdx 42 1 [⟨1, 10, [5]⟩] [⟨1, 10, [7]⟩] rfl rfl
    (fun _ => Iff.rfl)

/-- Claim C4: for every valid sampler, seed, ratio and input: every observed
pair appears with label 1; for every observed user the number of
label-0 rows is `min(number_neg_per_pos, |I| − positives_for_u)`; every
label-0 row is an unobserved pair of an observed user and observed item
(sampling without replacement: the label-0 rows are pairwise distinct);
and the result is sorted by `(user, item)` ascending. -/
theorem claim_C4 (s : Sampler) (hs : ValidSampler s) (seed npos : Nat)
    (rows : List NFRow) :
    (∀ r ∈ rows, (⟨r.u, r.i, 1⟩ : FBRow) ∈
      negative_feedback_sampler s seed npos rows) ∧
    (∀ u ∈ nfUsers rows,
      ((negative_feedback_sampler s seed npos rows).filter
        (fun x => decide (x.u = u) && decide (x.rating = 0))).length =
        min npos ((nfItems rows).length - posFor rows u)) ∧
    (∀ x ∈ negative_feedback_sampler s seed npos rows, x.rating = 0 →
      x.u ∈ nfUsers rows ∧ x.i ∈ nfItems rows ∧
        (x.u, x.i) ∉ nfTuples rows) ∧
    ((negative_feedback_sampler s seed npos rows).filter
      (fun x => decide (x.rating = 0))).Nodup ∧
    (negative_feedback_sampler s seed npos rows).Sorted fbLe := by
  have hperm : List.Perm (negative_feedback_sampler s seed npos rows)
      (posPart (dfAll rows) ++ negSample s seed npos (dfAll rows)) :=
    List.perm_insertionSort _ _
  refine ⟨?_, ?_, ?_, ?_, ?_⟩
  · intro r hr
    have hu : r.u ∈ nfUsers rows := by
      unfold nfUsers
      rw [mem_uniqueFirst]
      exact List.mem_map.mpr ⟨r, hr, rfl⟩
    have hi : r.i ∈ nfItems rows := by
      unfold nfItems
      rw [mem_uniqueFirst]
      exact List.mem_map.mpr ⟨r, hr, rfl⟩
    have ht : (r.u, r.i) ∈ nfTuples rows := List.mem_map.mpr ⟨r, hr, rfl⟩
    have hmem : (⟨r.u, r.i, 1⟩ : FBRow) ∈ dfAll rows := by
      rw [mem_dfAll]
      refine ⟨hu, hi, ?_⟩
      show (1 : Nat) = if (r.u, r.i) ∈ nfTuples rows then 1 else 0
      rw [if_pos ht]
    have hpos : (⟨r.u, r.i, 1⟩ : FBRow) ∈ posPart (dfAll rows) :=
      List.mem_filter.mpr ⟨hmem, rfl⟩
    exact hperm.mem_iff.mpr (List.mem_append.mpr (Or.inl hpos))
  · intro u hu
    rw [(hperm.filter _).length_eq, List.filter_append]
    have hposnil : (posPart (dfAll rows)).filter
        (fun x => decide (x.u = u) && decide (x.rating = 0)) = [] := by
      apply List.filter_eq_nil_iff.mpr
      intro x hx
      have h1 : x.rating = 1 := of_decide_eq_true (List.mem_filter.mp hx).2
      simp [h1]
    have hnegsame : (negSample s seed npos (dfAll rows)).filter
        (fun x => decide (x.u = u) && decide (x.rating = 0)) =
        (negSample s seed npos (dfAll rows)).filter
          (fun x => decide (x.u = u)) := by
      apply List.filter_congr
      intro x hx
      have h0 := (negSample_rating hs seed npos _ x hx).1
      simp [h0]
    rw [hposnil, hnegsame, List.nil_append, negSample_filter_u hs]
    by_cases hgu : u ∈ negGroupUsers (dfAll rows)
    · rw [if_pos hgu, sampleGroup_length hs, negGroup_length rows u hu]
    · rw [if_neg hgu]
      have hg0 : (nfItems rows).length - posFor rows u = 0 := by
        rw [← negGroup_length rows u hu, negGroup_nil_of_not_mem hgu]
        rfl
      rw [hg0, Nat.min_zero]
      rfl
  · intro x hx h0
    rcases List.mem_append.mp (hperm.mem_iff.mp hx) with hp | hn
    · have h1 : x.rating = 1 := of_decide_eq_true (List.mem_filter.mp hp).2
      exact absurd (h0.symm.trans h1) (by decide)
    · have hmem := (negSample_rating hs seed npos _ x hn).2
      rw [mem_dfAll] at hmem
      refine ⟨hmem.1, hmem.2.1, ?_⟩
      intro hT
      have hr := hmem.2.2
      rw [if_pos hT] at hr
      exact absurd (h0.symm.trans hr) (by decide)
  · apply (hperm.filter (fun x => decide (x.rating = 0))).nodup_iff.mpr
    rw [List.filter_append]
    have hposnil : (posPart (dfAll rows)).filter
        (fun x => decide (x.rating = 0)) = [] := by
      apply List.filter_eq_nil_iff.mpr
      intro x hx
      have h1 : x.rating = 1 := of_decide_eq_true (List.mem_filter.mp hx).2
      simp [h1]
    have hnegall : (negSample s seed npos (dfAll rows)).filter
        (fun x => decide (x.rating = 0)) =
        negSample s seed npos (dfAll rows) := by
      apply List.filter_eq_self.mpr
      intro x hx
      exact decide_eq_true (negSample_rating hs seed npos _ x hx).1
    rw [hposnil, hnegall, List.nil_append]
    exact nodup_negSample hs seed npos rows
  · exact List.sorted_insertionSort fbLe _

/-- A concrete instance discharging `claim_C4`'s hypotheses. -/
theorem claim_C4_witness :
    (⟨1, 10, 1⟩ : FBRow) ∈ negative_feedback_sampler firstIdx 0 1
        [⟨1, 10, []⟩, ⟨2, 20, []⟩, ⟨2, 30, []⟩] ∧
      ((negative_feedback_sampler firstIdx 0 1
          [⟨1, 10, []⟩, ⟨2, 20, []⟩, ⟨2, 30, []⟩]).filter
        (fun x => decide (x.u = 1) && decide (x.rating = 0))).length =
        min 1 ((nfItems [⟨1, 10, []⟩, ⟨2, 20, []⟩, ⟨2, 30, []⟩]).length -
          posFor [⟨1, 10, []⟩, ⟨2, 20, []⟩, ⟨2, 30, []⟩] 1) ∧
      (negative_feedback_sampler firstIdx 0 1
        [⟨1, 10, []⟩, ⟨2, 20, []⟩, ⟨2, 30, []⟩]).Sorted fbLe := by
  have h := claim_C4 firstIdx validSampler_firstIdx 0 1
    [⟨1, 10, []⟩, ⟨2, 20, []⟩, ⟨2, 30, []⟩]
  exact ⟨h.1 ⟨1, 10, []⟩ (by decide), h.2.1 1 (by decide), h.2.2.2.2⟩

theorem filter_eq_singleton {l : List Nat} {a : Nat} (hl : l.Nodup)
    (ha : a ∈ l) : l.filter (fun x => decide (x = a)) = [a] := by
  induction l with
  | nil => cases ha
  | cons b t ih =>
      rw [List.filter_cons]
      by_cases hb : b = a
      · rw [decide_eq_true hb, if_pos rfl, hb]
        have ht : t.filter (fun x => decide (x = a)) = [] := by
          apply List.filter_eq_nil_iff.mpr
          intro x hx hxa
          exact (List.nodup_cons.mp hl).1
            ((hb.trans (of_decide_eq_true hxa).symm) ▸ hx)
        rw [ht]
      · rw [decide_eq_false hb]
        have hat : a ∈ t := by
          rcases List.mem_cons.mp ha with h | h
          · exact absurd h.symm hb
          · exact h
        simpa using ih (List.nodup_cons.mp hl).2 hat

/-- Claim C10: an observed pair appears in the output exactly once, as the
single row `(u, i, 1)` — input row multiplicity is collapsed — and the
output is unchanged when every other input column is discarded. -/
theorem claim_C10 (s : Sampler) (hs : ValidSampler s) (seed npos : Nat)
    (rows : List NFRow) (u i : Nat) (hobs : (u, i) ∈ nfTuples rows) :
    (negative_feedback_sampler s seed npos rows).filter
        (fun x => decide (x.u = u) && decide (x.i = i)) = [⟨u, i, 1⟩] ∧
      negative_feedback_sampler s seed npos rows =
        negative_feedback_sampler s seed npos
          (rows.map (fun r => (⟨r.u, r.i, []⟩ : NFRow))) := by
  constructor
  · rcases List.mem_map.mp hobs with ⟨r, hr, hri⟩
    have hu : u ∈ nfUsers rows := by
      unfold nfUsers
      rw [mem_uniqueFirst]
      exact List.mem_map.mpr ⟨r, hr, congrArg Prod.fst hri⟩
    have hi : i ∈ nfItems rows := by
      unfold nfItems
      rw [mem_uniqueFirst]
      exact List.mem_map.mpr ⟨r, hr, congrArg Prod.snd hri⟩
    have hperm : List.Perm ((negative_feedback_sampler s seed npos rows).filter
        (fun x => decide (x.u = u) && decide (x.i = i)))
        (((posPart (dfAll rows)) ++ negSample s seed npos (dfAll rows)).filter
          (fun x => decide (x.u = u) && decide (x.i = i))) :=
      (List.perm_insertionSort _ _).filter _
    have hall : (dfAll rows).filter
        (fun x => decide (x.u = u) && decide (x.i = i)) = [⟨u, i, 1⟩] := by
      have hsplit : (dfAll rows).filter
          (fun x => decide (x.u = u) && decide (x.i = i)) =
          ((dfAll rows).filter (fun x => decide (x.u = u))).filter
            (fun x => decide (x.i = i)) := by
        rw [List.filter_filter]
        apply List.filter_congr
        intro x _
        rw [Bool.and_comm]
      rw [hsplit, dfAll_filter_u, if_pos hu]
      unfold userBlock
      rw [List.filter_map]
      have hfi : (nfItems rows).filter ((fun x => decide (x.i = i)) ∘
          (fun j => (⟨u, j, if (u, j) ∈ nfTuples rows then 1 else 0⟩ : FBRow))) =
          (nfItems rows).filter (fun j => decide (j = i)) := rfl
      rw [hfi, filter_eq_singleton (nodup_nfItems rows) hi]
      show [(⟨u, i, if (u, i) ∈ nfTuples rows then 1 else 0⟩ : FBRow)] = _
      rw [if_pos hobs]
    have hposfil : (posPart (dfAll rows)).filter
        (fun x => decide (x.u = u) && decide (x.i = i)) = [⟨u, i, 1⟩] := by
      unfold posPart
      have hsplit : ((dfAll rows).filter (fun r => decide (r.rating = 1))).filter
          (fun x => decide (x.u = u) && decide (x.i = i)) =
          ((dfAll rows).filter
            (fun x => decide (x.u = u) && decide (x.i = i))).filter
            (fun r => decide (r.rating = 1)) := by
        rw [List.filter_filter, List.filter_filter]
        apply List.filter_congr
        intro x _
        rw [Bool.and_comm]
      rw [hsplit, hall]
      rfl
    have hnegfil : (negSample s seed npos (dfAll rows)).filter
        (fun x => decide (x.u = u) && decide (x.i = i)) = [] := by
      apply List.filter_eq_nil_iff.mpr
      intro x hx hpx
      have hx0 := negSample_rating hs seed npos _ x hx
      have hxall := hx0.2
      rw [mem_dfAll] at hxall
      rw [Bool.and_eq_true] at hpx
      have hxu : x.u = u := of_decide_eq_true hpx.1
      have hxi : x.i = i := of_decide_eq_true hpx.2
      have hrate := hxall.2.2
      rw [hxu, hxi, if_pos hobs] at hrate
      exact absurd (hx0.1.symm.trans hrate) (by decide)
    rw [List.filter_append, hposfil, hnegfil, List.append_nil] at hperm
    exact List.perm_singleton.mp hperm
  · apply nfs_congr
    · unfold nfUsers
      rw [List.map_map]
      rfl
    · unfold nfItems
      rw [List.map_map]
      rfl
    · intro p
      unfold nfTuples
      rw [List.map_map]
      exact Iff.rfl

/-- A concrete instance discharging `claim_C10`'s hypotheses: the pair
`(1, 10)` occurs in two input rows with different extra columns, and
survives as the single positive row `(1, 10, 1)`. -/
theorem claim_C10_witness :
    (negative_feedback_sampler firstIdx 42 1
        [⟨1, 10, [5]⟩, ⟨1, 10, [3]⟩, ⟨2, 20, []⟩]).filter
        (fun x => decide (x.u = 1) && decide (x.i = 10)) = [⟨1, 10, 1⟩] ∧
      negative_feedback_sampler firstIdx 42 1
          [⟨1, 10, [5]⟩, ⟨1, 10, [3]⟩, ⟨2, 20, []⟩] =
        negative_feedback_sampler firstIdx 42 1
          (([⟨1, 10, [5]⟩, ⟨1, 10, [3]⟩, ⟨2, 20, []⟩] : List NFRow).map
            (fun r => (⟨r.u, r.i, []⟩ : NFRow))) :=
  claim_C10 firstIdx validSampler_firstIdx 42 1
    [⟨1, 10, [5]⟩, ⟨1, 10, [3]⟩, ⟨2, 20, []⟩] 1 10 (by decide)

end PandasDfUtils
